import Mathlib

/-!
# Verification of the whimsy polygon / pathfinding core

This file gives a shallow embedding of the computational-geometry core of the
whimsy adventure-game engine: the `Polygon` ring algebra (area, winding-number
containment, segment intersection, boolean union, flood fill) and the `Paths`
visibility-graph pathfinder built on top of it.

The embedding follows the JavaScript port (`polygon.js`, `paths.js`), which the
repository keeps in sync with the C++ port.  JavaScript numbers are embedded as
exact rationals: all inputs are integer coordinates and every intermediate
value the algorithms branch on is a ratio of integer cross products, so exact
rational arithmetic is the intended semantics of the code.  Because Mathlib's
`ℚ` operations are `@[irreducible]` (so concrete runs could not be checked by
`decide`), rationals are represented by the executable pair type `Exq` below,
whose meaning is fixed by the map `Exq.val : Exq → ℚ` and the homomorphism
lemmas that follow it.  Ring data is kept in the very shape the code uses: a
ring is a flat list of `(x, y, dx, dy)` records, one per edge, produced by
`expand` from a vertex list.
-/

namespace Whimsy

/-- An exact rational: numerator and denominator.  Every value produced by the
operations below has a positive denominator.  The JavaScript sources compute
with IEEE numbers; their intended exact semantics is `Exq.val`. -/
structure Exq where
  n : ℤ
  d : ℤ
deriving DecidableEq, Repr

namespace Exq

/-- The rational value an `Exq` pair denotes. -/
def val (a : Exq) : ℚ := (a.n : ℚ) / (a.d : ℚ)

/-- Embed an integer. -/
def ofInt (n : ℤ) : Exq := ⟨n, 1⟩

instance (n : ℕ) : OfNat Exq n := ⟨⟨(n : ℤ), 1⟩⟩

instance : Neg Exq := ⟨fun a => ⟨-a.n, a.d⟩⟩

instance : Add Exq := ⟨fun a b => ⟨a.n * b.d + b.n * a.d, a.d * b.d⟩⟩

instance : Sub Exq := ⟨fun a b => ⟨a.n * b.d - b.n * a.d, a.d * b.d⟩⟩

instance : Mul Exq := ⟨fun a b => ⟨a.n * b.n, a.d * b.d⟩⟩

/-- Division.  Division by a zero value yields `0` (matching `ℚ`; the code only
divides by cross products it has checked to be nonzero).  The sign of the
result's denominator is normalized to stay positive. -/
instance : Div Exq :=
  ⟨fun a b =>
    if b.n = 0 then ⟨0, 1⟩
    else if a.d * b.n < 0 then ⟨-(a.n * b.d), -(a.d * b.n)⟩
    else ⟨a.n * b.d, a.d * b.n⟩⟩

/-- Value-level comparison (correct whenever denominators are positive, which
all constructed values keep). -/
instance : LE Exq := ⟨fun a b => a.n * b.d ≤ b.n * a.d⟩

instance : LT Exq := ⟨fun a b => a.n * b.d < b.n * a.d⟩

instance (a b : Exq) : Decidable (a ≤ b) := by
  change Decidable (a.n * b.d ≤ b.n * a.d); infer_instance

instance (a b : Exq) : Decidable (a < b) := by
  change Decidable (a.n * b.d < b.n * a.d); infer_instance

/-- Value-level equality test (JavaScript `===` on numbers). -/
def qeq (a b : Exq) : Bool := a.n * b.d = b.n * a.d

/-- `Math.min`. -/
def qmin (a b : Exq) : Exq := if a ≤ b then a else b

/-- `Math.max`. -/
def qmax (a b : Exq) : Exq := if a ≤ b then b else a

/-- Truncation toward zero (JavaScript integer conversion / `%` building block).
`Int.tdiv` truncates toward zero. -/
def trunc (a : Exq) : ℤ := a.n.tdiv a.d

/-- The JavaScript `%` operator on numbers: `a - m * trunc (a / m)`. -/
def jsMod (a m : Exq) : Exq := a - m * ofInt (trunc (a / m))

/-- Positivity of the denominator: the invariant all constructed values keep. -/
def Pos (a : Exq) : Prop := 0 < a.d

instance (a : Exq) : Decidable a.Pos := by
  change Decidable (0 < a.d); infer_instance

/-! Projection lemmas unfolding the operations, and the `val` homomorphism
lemmas that fix what each operation means as a rational number. -/

theorem add_n (a b : Exq) : (a + b).n = a.n * b.d + b.n * a.d := rfl

theorem add_d (a b : Exq) : (a + b).d = a.d * b.d := rfl

theorem sub_n (a b : Exq) : (a - b).n = a.n * b.d - b.n * a.d := rfl

theorem sub_d (a b : Exq) : (a - b).d = a.d * b.d := rfl

theorem mul_n (a b : Exq) : (a * b).n = a.n * b.n := rfl

theorem mul_d (a b : Exq) : (a * b).d = a.d * b.d := rfl

theorem neg_n (a : Exq) : (-a).n = -a.n := rfl

theorem neg_d (a : Exq) : (-a).d = a.d := rfl

theorem le_def (a b : Exq) : a ≤ b ↔ a.n * b.d ≤ b.n * a.d := Iff.rfl

theorem lt_def (a b : Exq) : a < b ↔ a.n * b.d < b.n * a.d := Iff.rfl

theorem div_eq (a b : Exq) : a / b =
    if b.n = 0 then ⟨0, 1⟩
    else if a.d * b.n < 0 then ⟨-(a.n * b.d), -(a.d * b.n)⟩
    else ⟨a.n * b.d, a.d * b.n⟩ := rfl

theorem n_ofNat (n : ℕ) : (OfNat.ofNat n : Exq).n = (n : ℤ) := rfl

theorem d_ofNat (n : ℕ) : (OfNat.ofNat n : Exq).d = 1 := rfl

theorem ofNat_val (n : ℕ) : (OfNat.ofNat n : Exq).val = n := by
  show ((n : ℤ) : ℚ) / ((1 : ℤ) : ℚ) = n
  norm_num

theorem ofInt_val (n : ℤ) : (ofInt n).val = n := by
  simp [val, ofInt]

theorem pos_ofNat (n : ℕ) : (OfNat.ofNat n : Exq).Pos := Int.zero_lt_one

theorem pos_ofInt (n : ℤ) : (ofInt n).Pos := Int.zero_lt_one

theorem Pos.add {a b : Exq} (ha : a.Pos) (hb : b.Pos) : (a + b).Pos :=
  Int.mul_pos ha hb

theorem Pos.sub {a b : Exq} (ha : a.Pos) (hb : b.Pos) : (a - b).Pos :=
  Int.mul_pos ha hb

theorem Pos.mul {a b : Exq} (ha : a.Pos) (hb : b.Pos) : (a * b).Pos :=
  Int.mul_pos ha hb

theorem Pos.neg {a : Exq} (ha : a.Pos) : (-a).Pos := ha

theorem Pos.div {a b : Exq} (ha : a.Pos) : (a / b).Pos := by
  change 0 < (a / b).d
  rw [Exq.div_eq]
  split
  · exact Int.zero_lt_one
  · split
    · next h => exact Int.neg_pos.mpr h
    · next hb h =>
      exact lt_of_le_of_ne (not_lt.mp h)
        (Ne.symm (mul_ne_zero (ne_of_gt ha) hb))

theorem Pos.qmin {a b : Exq} (ha : a.Pos) (hb : b.Pos) : (Exq.qmin a b).Pos := by
  unfold Exq.qmin; split <;> assumption

theorem Pos.qmax {a b : Exq} (ha : a.Pos) (hb : b.Pos) : (Exq.qmax a b).Pos := by
  unfold Exq.qmax; split <;> assumption

theorem dq_ne {a : Exq} (ha : a.Pos) : ((a.d : ℚ)) ≠ 0 := by
  exact_mod_cast (ne_of_gt ha)

theorem val_add {a b : Exq} (ha : a.Pos) (hb : b.Pos) :
    (a + b).val = a.val + b.val := by
  simp only [val, add_n, add_d]
  have h1 := dq_ne ha
  have h2 := dq_ne hb
  push_cast
  field_simp
  try ring

theorem val_sub {a b : Exq} (ha : a.Pos) (hb : b.Pos) :
    (a - b).val = a.val - b.val := by
  simp only [val, sub_n, sub_d]
  have h1 := dq_ne ha
  have h2 := dq_ne hb
  push_cast
  field_simp
  try ring

theorem val_mul {a b : Exq} (ha : a.Pos) (hb : b.Pos) :
    (a * b).val = a.val * b.val := by
  simp only [val, mul_n, mul_d]
  have h1 := dq_ne ha
  have h2 := dq_ne hb
  push_cast
  field_simp
  try ring

theorem val_neg (a : Exq) : (-a).val = -a.val := by
  simp [val, neg_n, neg_d, neg_div]

theorem val_div (a b : Exq) : (a / b).val = a.val / b.val := by
  have key : a.val / b.val = ((a.n : ℚ) * (b.d : ℚ)) / ((a.d : ℚ) * (b.n : ℚ)) := by
    simp only [val]
    rw [div_eq_mul_inv ((a.n : ℚ) / a.d), inv_div, div_mul_div_comm]
  rw [div_eq]
  split
  · next h =>
    simp [val, h]
  · rw [key]
    split
    · simp only [val]
      push_cast
      rw [neg_div_neg_eq]
    · simp only [val]
      push_cast
      rfl

theorem val_le {a b : Exq} (ha : a.Pos) (hb : b.Pos) :
    a ≤ b ↔ a.val ≤ b.val := by
  rw [le_def]
  simp only [val]
  rw [div_le_div_iff₀ (by exact_mod_cast ha) (by exact_mod_cast hb)]
  exact_mod_cast Iff.rfl

theorem val_lt {a b : Exq} (ha : a.Pos) (hb : b.Pos) :
    a < b ↔ a.val < b.val := by
  rw [lt_def]
  simp only [val]
  rw [div_lt_div_iff₀ (by exact_mod_cast ha) (by exact_mod_cast hb)]
  exact_mod_cast Iff.rfl

theorem val_qeq {a b : Exq} (ha : a.Pos) (hb : b.Pos) :
    a.qeq b = true ↔ a.val = b.val := by
  unfold qeq
  rw [decide_eq_true_eq]
  simp only [val]
  rw [div_eq_div_iff (dq_ne ha) (dq_ne hb)]
  exact_mod_cast Iff.rfl

theorem not_le_iff {a b : Exq} : ¬a ≤ b ↔ b < a := by
  rw [le_def, lt_def]
  omega

theorem val_qmin {a b : Exq} (ha : a.Pos) (hb : b.Pos) :
    (qmin a b).val = min a.val b.val := by
  unfold qmin
  split
  · next h => exact (min_eq_left ((val_le ha hb).mp h)).symm
  · next h =>
    exact (min_eq_right (le_of_lt ((val_lt hb ha).mp (not_le_iff.mp h)))).symm

theorem val_qmax {a b : Exq} (ha : a.Pos) (hb : b.Pos) :
    (qmax a b).val = max a.val b.val := by
  unfold qmax
  split
  · next h => exact (max_eq_right ((val_le ha hb).mp h)).symm
  · next h =>
    exact (max_eq_left (le_of_lt ((val_lt hb ha).mp (not_le_iff.mp h)))).symm

end Exq

/-- A 2D point / vector with exact rational coordinates (`point.js`). -/
structure Pt where
  x : Exq
  y : Exq
deriving DecidableEq, Repr

/-- One entry of a ring's flat edge array: the vertex `(x, y)` together with the
edge vector `(dx, dy)` leading to the next vertex (`polygon.js` ring format). -/
structure Seg where
  x : Exq
  y : Exq
  dx : Exq
  dy : Exq
deriving DecidableEq, Repr

/-- A ring: the flat list of edge records. -/
abbrev Ring := List Seg

/-- Helper for `expand`: walk the vertex list emitting `(start, end - start)`
records, closing the loop back to the first vertex `p0`. -/
def expandGo (p0 : Pt) : Pt → List Pt → List Seg
  | s, [] => [⟨s.x, s.y, p0.x - s.x, p0.y - s.y⟩]
  | s, e :: rest => ⟨s.x, s.y, e.x - s.x, e.y - s.y⟩ :: expandGo p0 e rest

/-- `expand` from `polygon.js`: turn a vertex list into the flat ring format of
vertices plus edge vectors, including the closing edge. -/
def expand (points : List Pt) : Ring :=
  match points with
  | [] => []
  | p0 :: rest => expandGo p0 p0 rest

/-- The shoelace sum `Σ (x * dy - y * dx)` over the edges of a ring: twice the
signed area (`area` in `polygon.js` accumulates exactly this sum). -/
def areaSum (r : Ring) : Exq :=
  r.foldr (fun s acc => (s.x * s.dy - s.y * s.dx) + acc) 0

/-- `area` from `polygon.js`: half the shoelace sum.  Positive for one winding
direction ("solid"), negative for the other ("hole"). -/
def area (r : Ring) : Exq :=
  areaSum r / 2

/-- `isHole` from `polygon.js`: a ring is a hole iff its signed area is negative. -/
def isHole (r : Ring) : Bool :=
  area r < 0

/-- Result record of `windingNumber`: the signed winding count and the number of
boundary hits. -/
structure WN where
  winding : ℤ
  border : ℕ
deriving DecidableEq, Repr

/-- One step of the `windingNumber` fold in `polygon.js`, processing one edge. -/
def wnStep (px py : Exq) (acc : WN) (s : Seg) : WN :=
  if s.dy.qeq 0 then
    -- Horizontal edge: only the "border" count can change.
    if s.y.qeq py ∧ s.x + Exq.qmin 0 s.dx ≤ px ∧ px ≤ s.x + Exq.qmax 0 s.dx then
      { acc with border := acc.border + 1 }
    else acc
  else
    let startsBelow := s.y ≤ py
    let endsBelow := s.y + s.dy ≤ py
    if startsBelow ↔ endsBelow then acc
    else
      let cross := (px - s.x) * s.dy - (py - s.y) * s.dx
      { winding := acc.winding
          + (if ¬endsBelow ∧ cross ≤ 0 then 1 else 0)
          - (if endsBelow ∧ 0 < cross then 1 else 0),
        border := acc.border + (if cross.qeq 0 then 1 else 0) }

/-- `windingNumber` from `polygon.js`: fold `wnStep` over the ring's edges. -/
def windingNumber (r : Ring) (px py : Exq) : WN :=
  r.foldl (wnStep px py) ⟨0, 0⟩

/-- `contains` (ring-level) from `polygon.js`: winding nonzero or border hit. -/
def containsR (r : Ring) (p : Pt) : Bool :=
  let res := windingNumber r p.x p.y
  res.winding ≠ 0 ∨ res.border ≠ 0

/-- `ringContainsRing` from `polygon.js`: given that `other` does not intersect
`ring`, check whether `other` is inside `ring`, testing `other`'s first vertex. -/
def ringContainsRing (ring other : Ring) : Bool :=
  match other with
  | [] => false
  | s :: _ =>
    let res := windingNumber ring s.x s.y
    res.winding ≠ 0 ∧ (res.border = 0 ∨ area other < area ring)

/-- `Polygon.contains` from `polygon.js`: sum winding numbers over all rings,
returning `true` immediately if any ring reports the point on its border. -/
def polyContainsGo (p : Pt) : List Ring → ℤ → Bool
  | [], w => w ≠ 0
  | r :: rest, w =>
    let res := windingNumber r p.x p.y
    if res.border ≠ 0 then true else polyContainsGo p rest (w + res.winding)

/-- `Polygon.contains` from `polygon.js`. -/
def polyContains (rings : List Ring) (p : Pt) : Bool :=
  polyContainsGo p rings 0

/-- A point with integer coordinates. -/
def iPt (x y : ℤ) : Pt := ⟨Exq.ofInt x, Exq.ofInt y⟩

-- The 10×10 square ring from the spec's test properties, and its reverse.
/-- The square ring `(0,0),(10,0),(10,10),(0,10)` in expanded form. -/
def sqRing : Ring := expand [iPt 0 0, iPt 10 0, iPt 10 10, iPt 0 10]

/-- The same square with the vertex order reversed. -/
def sqRingRev : Ring := expand [iPt 0 10, iPt 10 10, iPt 10 0, iPt 0 0]

/-- All four fields of an edge record have positive denominators. -/
def SegPos (s : Seg) : Prop := s.x.Pos ∧ s.y.Pos ∧ s.dx.Pos ∧ s.dy.Pos

instance (s : Seg) : Decidable (SegPos s) := by
  unfold SegPos; infer_instance

theorem areaSum_pos {r : Ring} (h : ∀ s ∈ r, SegPos s) : (areaSum r).Pos := by
  induction r with
  | nil => exact Exq.pos_ofNat 0
  | cons s rest ih =>
    have hs := h s (List.mem_cons_self s rest)
    exact Exq.Pos.add
      (Exq.Pos.sub (Exq.Pos.mul hs.1 hs.2.2.2) (Exq.Pos.mul hs.2.1 hs.2.2.1))
      (ih fun t ht => h t (List.mem_cons_of_mem s ht))

theorem val_areaSum {r : Ring} (h : ∀ s ∈ r, SegPos s) :
    (areaSum r).val =
      (r.map fun s => s.x.val * s.dy.val - s.y.val * s.dx.val).sum := by
  induction r with
  | nil =>
    simp only [areaSum, List.foldr_nil, List.map_nil, List.sum_nil]
    simpa using Exq.ofNat_val 0
  | cons s rest ih =>
    have hs := h s (List.mem_cons_self s rest)
    have hrest : ∀ t ∈ rest, SegPos t := fun t ht => h t (List.mem_cons_of_mem s ht)
    have hterm : ((s.x * s.dy - s.y * s.dx)).Pos :=
      Exq.Pos.sub (Exq.Pos.mul hs.1 hs.2.2.2) (Exq.Pos.mul hs.2.1 hs.2.2.1)
    show ((s.x * s.dy - s.y * s.dx) + areaSum rest).val = _
    rw [Exq.val_add hterm (areaSum_pos hrest),
      Exq.val_sub (Exq.Pos.mul hs.1 hs.2.2.2) (Exq.Pos.mul hs.2.1 hs.2.2.1),
      Exq.val_mul hs.1 hs.2.2.2, Exq.val_mul hs.2.1 hs.2.2.1, ih hrest]
    simp

/-- Exact rational value of `area` at a concrete ring, via `qeq` evaluation. -/
theorem area_val_of_qeq {r : Ring} {m : ℤ} (h : (area r).Pos)
    (hq : (area r).qeq (Exq.ofInt m) = true) : (area r).val = m := by
  have := (Exq.val_qeq h (Exq.pos_ofInt m)).mp hq
  rwa [Exq.ofInt_val] at this

/-- C3, counterexample.  For the square ring `(0,0),(10,0),(10,10),(0,10)` the
code's `area` evaluates to `100` (and `-100` for the reversed order), not to
`±50` as the claim states: the claim is false at this very input. -/
theorem c3_area_square_counterexample :
    (area sqRing).val = 100 ∧ (area sqRingRev).val = -100 ∧
      ¬((area sqRing).val = 50 ∨ (area sqRing).val = -50) := by
  have h1 : (area sqRing).val = ((100 : ℤ) : ℚ) :=
    area_val_of_qeq (by decide) (by decide)
  have h2 : (area sqRingRev).val = ((-100 : ℤ) : ℚ) :=
    area_val_of_qeq (by decide) (by decide)
  refine ⟨by rw [h1]; norm_num, by rw [h2]; norm_num, ?_⟩
  rw [h1]
  norm_num

/-- C3, amended.  `Area()` of the square ring is `100` (or `-100` for the
reversed winding direction), and in general `area` is half the sum, over each
edge, of `start.cross(end)` where `start = (x, y)` and `end = (x+dx, y+dy)`. -/
theorem c3_area_square_amended :
    (∀ r : Ring, (∀ s ∈ r, SegPos s) →
      (area r).val = (r.map fun s =>
        s.x.val * (s.y.val + s.dy.val) - s.y.val * (s.x.val + s.dx.val)).sum / 2) ∧
    (area sqRing).val = 100 ∧ (area sqRingRev).val = -100 := by
  refine ⟨fun r h => ?_, ?_, ?_⟩
  · show ((areaSum r) / 2).val = _
    rw [Exq.val_div, val_areaSum h, Exq.ofNat_val]
    rw [List.map_congr_left (fun s _ => by ring :
      ∀ s ∈ r, s.x.val * s.dy.val - s.y.val * s.dx.val =
        s.x.val * (s.y.val + s.dy.val) - s.y.val * (s.x.val + s.dx.val))]
    norm_num
  · have h1 : (area sqRing).val = ((100 : ℤ) : ℚ) :=
      area_val_of_qeq (by decide) (by decide)
    rw [h1]; norm_num
  · have h2 : (area sqRingRev).val = ((-100 : ℤ) : ℚ) :=
      area_val_of_qeq (by decide) (by decide)
    rw [h2]; norm_num

/-- Witness for C3's amended theorem: the general half-cross-sum formula
applied to the concrete square ring. -/
theorem c3_area_square_amended_witness :
    (area sqRing).val = (sqRing.map fun s =>
      s.x.val * (s.y.val + s.dy.val) - s.y.val * (s.x.val + s.dx.val)).sum / 2 :=
  c3_area_square_amended.1 sqRing (by decide)

/-! ## Claim C4: winding-number containment -/

/-- The point `p` lies on the closed edge `s` (mathematical statement, over the
rational values). -/
def onSeg (p : Pt) (s : Seg) : Prop :=
  ∃ t : ℚ, 0 ≤ t ∧ t ≤ 1 ∧
    p.x.val = s.x.val + t * s.dx.val ∧ p.y.val = s.y.val + t * s.dy.val

/-- The point `p` lies on some edge of the ring `r`. -/
def onEdge (r : Ring) (p : Pt) : Prop :=
  ∃ s ∈ r, onSeg p s

/-- The condition under which one `windingNumber` step bumps the border count. -/
def borderHit (px py : Exq) (s : Seg) : Bool :=
  if s.dy.qeq 0 then
    decide (s.y.qeq py ∧ s.x + Exq.qmin 0 s.dx ≤ px ∧ px ≤ s.x + Exq.qmax 0 s.dx)
  else if (s.y ≤ py) ↔ (s.y + s.dy ≤ py) then false
  else ((px - s.x) * s.dy - (py - s.y) * s.dx).qeq 0

theorem wnStep_border (px py : Exq) (acc : WN) (s : Seg) :
    (wnStep px py acc s).border = acc.border + (if borderHit px py s then 1 else 0) := by
  unfold wnStep borderHit
  split_ifs <;> simp_all

theorem foldl_border_exists {px py : Exq} (l : List Seg) :
    ∀ acc : WN, (l.foldl (wnStep px py) acc).border ≠ acc.border →
      ∃ s ∈ l, borderHit px py s = true := by
  induction l with
  | nil => intro acc h; exact absurd rfl h
  | cons s rest ih =>
    intro acc h
    by_cases hb : borderHit px py s = true
    · exact ⟨s, List.mem_cons_self s rest, hb⟩
    · have heq : (wnStep px py acc s).border = acc.border := by
        rw [wnStep_border]; simp [hb]
      rw [List.foldl_cons, ← heq] at h
      obtain ⟨t, ht, hbt⟩ := ih (wnStep px py acc s) h
      exact ⟨t, List.mem_cons_of_mem s ht, hbt⟩

theorem div_bounds_of_between {P X DX : ℚ} (hdx : DX ≠ 0)
    (hmin : X + min 0 DX ≤ P) (hmax : P ≤ X + max 0 DX) :
    0 ≤ (P - X) / DX ∧ (P - X) / DX ≤ 1 ∧ X + ((P - X) / DX) * DX = P := by
  have ht : ((P - X) / DX) * DX = P - X := div_mul_cancel₀ _ hdx
  rcases lt_or_gt_of_ne hdx with hneg | hpos
  · rw [min_eq_right (le_of_lt hneg)] at hmin
    rw [max_eq_left (le_of_lt hneg)] at hmax
    refine ⟨?_, ?_, by linarith⟩
    · rw [← neg_div_neg_eq]
      apply div_nonneg <;> linarith
    · by_contra hc
      push_neg at hc
      have := mul_lt_mul_of_neg_right hc hneg
      rw [one_mul] at this
      linarith
  · rw [min_eq_left (le_of_lt hpos)] at hmin
    rw [max_eq_right (le_of_lt hpos)] at hmax
    refine ⟨div_nonneg (by linarith) (le_of_lt hpos), ?_, by linarith⟩
    rw [div_le_one hpos]
    linarith

theorem div_bounds_of_crossing {P Y DY : ℚ} (h : ¬((Y ≤ P) ↔ (Y + DY ≤ P))) :
    DY ≠ 0 ∧ 0 ≤ (P - Y) / DY ∧ (P - Y) / DY ≤ 1 ∧ Y + ((P - Y) / DY) * DY = P := by
  have hcases : (Y ≤ P ∧ ¬(Y + DY ≤ P)) ∨ (¬(Y ≤ P) ∧ Y + DY ≤ P) := by tauto
  rcases hcases with ⟨h1, h2⟩ | ⟨h1, h2⟩
  · push_neg at h2
    have hdy : 0 < DY := by linarith
    have ht : ((P - Y) / DY) * DY = P - Y := div_mul_cancel₀ _ (ne_of_gt hdy)
    exact ⟨ne_of_gt hdy, div_nonneg (by linarith) (le_of_lt hdy),
      by rw [div_le_one hdy]; linarith, by linarith⟩
  · push_neg at h1
    have hdy : DY < 0 := by linarith
    have ht : ((P - Y) / DY) * DY = P - Y := div_mul_cancel₀ _ (ne_of_lt hdy)
    refine ⟨ne_of_lt hdy, ?_, ?_, by linarith⟩
    · rw [← neg_div_neg_eq]
      apply div_nonneg <;> linarith
    · by_contra hc
      push_neg at hc
      have := mul_lt_mul_of_neg_right hc hdy
      rw [one_mul] at this
      linarith

theorem qeq_zero_val {a : Exq} (ha : a.Pos) (h : a.qeq 0 = true) : a.val = 0 := by
  have := (Exq.val_qeq ha (Exq.pos_ofNat 0)).mp h
  rw [Exq.ofNat_val] at this
  simpa using this

/-- Soundness of the border flag: whenever one step of `windingNumber` reports
a border hit, the query point really lies on that edge. -/
theorem borderHit_onSeg {px py : Exq} {s : Seg} (hs : SegPos s)
    (hx : px.Pos) (hy : py.Pos) (h : borderHit px py s = true) :
    onSeg ⟨px, py⟩ s := by
  obtain ⟨hsx, hsy, hsdx, hsdy⟩ := hs
  unfold borderHit at h
  by_cases hdy : s.dy.qeq 0 = true
  · rw [if_pos hdy, decide_eq_true_eq] at h
    obtain ⟨h0, h1, h2⟩ := h
    have hdy0 : s.dy.val = 0 := qeq_zero_val hsdy hdy
    have hy0 : s.y.val = py.val := (Exq.val_qeq hsy hy).mp h0
    have hqmin : (Exq.qmin 0 s.dx).Pos := Exq.Pos.qmin (Exq.pos_ofNat 0) hsdx
    have hqmax : (Exq.qmax 0 s.dx).Pos := Exq.Pos.qmax (Exq.pos_ofNat 0) hsdx
    have hmin : s.x.val + min 0 s.dx.val ≤ px.val := by
      have := (Exq.val_le (Exq.Pos.add hsx hqmin) hx).mp h1
      rwa [Exq.val_add hsx hqmin, Exq.val_qmin (Exq.pos_ofNat 0) hsdx,
        Exq.ofNat_val, Nat.cast_zero] at this
    have hmax : px.val ≤ s.x.val + max 0 s.dx.val := by
      have := (Exq.val_le hx (Exq.Pos.add hsx hqmax)).mp h2
      rwa [Exq.val_add hsx hqmax, Exq.val_qmax (Exq.pos_ofNat 0) hsdx,
        Exq.ofNat_val, Nat.cast_zero] at this
    by_cases hdx0 : s.dx.val = 0
    · rw [hdx0] at hmin hmax
      simp only [min_self, max_self] at hmin hmax
      refine ⟨0, le_refl 0, zero_le_one, ?_, ?_⟩
      · rw [hdx0]; simp; linarith
      · rw [hdy0, hy0]; ring
    · obtain ⟨hb0, hb1, hbx⟩ := div_bounds_of_between hdx0 hmin hmax
      exact ⟨(px.val - s.x.val) / s.dx.val, hb0, hb1, by linarith,
        by rw [hdy0, hy0]; ring⟩
  · rw [if_neg hdy] at h
    have hdyv : ¬(s.dy.val = 0) := fun hc => hdy ((Exq.val_qeq hsdy (Exq.pos_ofNat 0)).mpr
      (by rw [Exq.ofNat_val]; simpa using hc))
    split_ifs at h with hcross
    have hcrossv : ¬((s.y.val ≤ py.val) ↔ (s.y.val + s.dy.val ≤ py.val)) := by
      rw [← Exq.val_le hsy hy, ← Exq.val_add hsy hsdy, ← Exq.val_le (Exq.Pos.add hsy hsdy) hy]
      exact hcross
    have hcpos : ((px - s.x) * s.dy - (py - s.y) * s.dx).Pos :=
      Exq.Pos.sub (Exq.Pos.mul (Exq.Pos.sub hx hsx) hsdy)
        (Exq.Pos.mul (Exq.Pos.sub hy hsy) hsdx)
    have hcval : (px.val - s.x.val) * s.dy.val - (py.val - s.y.val) * s.dx.val = 0 := by
      have := qeq_zero_val hcpos h
      rwa [Exq.val_sub (Exq.Pos.mul (Exq.Pos.sub hx hsx) hsdy)
          (Exq.Pos.mul (Exq.Pos.sub hy hsy) hsdx),
        Exq.val_mul (Exq.Pos.sub hx hsx) hsdy,
        Exq.val_mul (Exq.Pos.sub hy hsy) hsdx,
        Exq.val_sub hx hsx, Exq.val_sub hy hsy] at this
    obtain ⟨hne, hb0, hb1, hby⟩ := div_bounds_of_crossing hcrossv
    refine ⟨(py.val - s.y.val) / s.dy.val, hb0, hb1, ?_, by linarith⟩
    have h4 : ((py.val - s.y.val) / s.dy.val) * s.dx.val = px.val - s.x.val := by
      rw [div_mul_eq_mul_div, show (py.val - s.y.val) * s.dx.val
          = (px.val - s.x.val) * s.dy.val from by linarith,
        mul_div_assoc, div_self hne, mul_one]
    linarith

/-- The triangle ring `(0,0),(10,0),(5,5)` in expanded form. -/
def triRing : Ring := expand [iPt 0 0, iPt 10 0, iPt 5 5]

/-- C4, counterexample.  The apex `(5,5)` of the triangle `(0,0),(10,0),(5,5)`
lies on the ring (it is a vertex, hence on two closed edges), yet `contains`
reports `false`: the "iff ... or the point lies exactly on one of the ring's
edges" claim fails at this input. -/
theorem c4_contains_winding_counterexample :
    containsR triRing (iPt 5 5) = false ∧ onEdge triRing (iPt 5 5) := by
  refine ⟨by decide, ⟨⟨⟨10, 1⟩, ⟨0, 1⟩, ⟨-5, 1⟩, ⟨5, 1⟩⟩, by decide, 1, ?_⟩⟩
  refine ⟨zero_le_one, le_refl 1, ?_, ?_⟩
  · show ((5 : ℤ) : ℚ) / ((1 : ℤ) : ℚ)
      = ((10 : ℤ) : ℚ) / ((1 : ℤ) : ℚ) + 1 * (((-5 : ℤ) : ℚ) / ((1 : ℤ) : ℚ))
    norm_num
  · show ((5 : ℤ) : ℚ) / ((1 : ℤ) : ℚ)
      = ((0 : ℤ) : ℚ) / ((1 : ℤ) : ℚ) + 1 * (((5 : ℤ) : ℚ) / ((1 : ℤ) : ℚ))
    norm_num

/-- C4, amended.  `contains` is true iff the computed winding number is nonzero
or the computed border flag is set; a set border flag does imply that the point
lies exactly on one of the ring's edges (the converse can fail at a vertex whose
two adjacent edges both start weakly below it, as the counterexample shows); and
the square-ring instances of the claim hold as stated. -/
theorem c4_contains_winding_amended :
    (∀ (r : Ring) (p : Pt), containsR r p = true ↔
      ((windingNumber r p.x p.y).winding ≠ 0 ∨ (windingNumber r p.x p.y).border ≠ 0)) ∧
    (∀ (r : Ring) (p : Pt), (∀ s ∈ r, SegPos s) → p.x.Pos → p.y.Pos →
      (windingNumber r p.x p.y).border ≠ 0 → onEdge r p) ∧
    containsR sqRing (iPt 5 5) = true ∧ containsR sqRing (iPt 15 5) = false ∧
      containsR sqRing (iPt 0 5) = true := by
  refine ⟨fun r p => ?_, fun r p hs hx hy hb => ?_, by decide, by decide, by decide⟩
  · simp [containsR]
  · obtain ⟨s, hmem, hhit⟩ := foldl_border_exists r ⟨0, 0⟩ hb
    exact ⟨s, hmem, borderHit_onSeg (hs s hmem) hx hy hhit⟩

/-- Witness for C4's amended theorem: the border-soundness part applied to the
boundary point `(0,5)` of the square ring. -/
theorem c4_contains_winding_amended_witness : onEdge sqRing (iPt 0 5) :=
  c4_contains_winding_amended.2.1 sqRing (iPt 0 5) (by decide) (by decide) (by decide)
    (by decide)

/-! ## Claim C5: segment/boundary intersection -/

/-- Both coordinates of a point have positive denominators. -/
def PtPos (p : Pt) : Prop := p.x.Pos ∧ p.y.Pos

instance (p : Pt) : Decidable (PtPos p) := by
  unfold PtPos; infer_instance

/-- One edge's contribution to `Polygon.intersects` in `polygon.js`, given the
previous edge's cross product `pCross` and this edge's cross product `cross`.
`true` means the code returns true at this edge; `false` means it continues. -/
def intersectsSegStep (s e v : Pt) (pCross cross : Exq) (sg : Seg) : Bool :=
  if s.x.qeq sg.x ∧ s.y.qeq sg.y then pCross < 0 ∧ cross < 0
  else if e.x.qeq sg.x ∧ e.y.qeq sg.y then 0 < pCross ∧ 0 < cross
  else if cross.qeq 0 then false
  else
    let dx := s.x - sg.x
    let dy := s.y - sg.y
    let segT := (dx * sg.dy - dy * sg.dx) / cross
    let edgeT := (dx * v.y - dy * v.x) / cross
    if edgeT < 0 ∨ 1 < edgeT ∨ segT < 0 ∨ 1 < segT then false
    else if 0 < segT ∧ segT < 1 then true
    else if ¬edgeT.qeq 0 ∧ ¬edgeT.qeq 1 ∧ (segT.qeq 0 ↔ cross < 0) then true
    else false

/-- The edge loop of `Polygon.intersects`, threading the previous edge's cross
product. -/
def intersectsRingGo (s e v : Pt) : Exq → List Seg → Bool
  | _, [] => false
  | prev, sg :: rest =>
    let cross := sg.dx * v.y - sg.dy * v.x
    if intersectsSegStep s e v prev cross sg then true
    else intersectsRingGo s e v cross rest

/-- The per-ring body of `Polygon.intersects`: seeds `prev` with the cross
product of the closing edge (computed from the first and last vertices). -/
def intersectsRing (s e : Pt) (r : Ring) : Bool :=
  match r with
  | [] => false
  | s0 :: rest =>
    let v : Pt := ⟨e.x - s.x, e.y - s.y⟩
    let last := (s0 :: rest).getLast (List.cons_ne_nil s0 rest)
    let prev := (s0.x - last.x) * v.y - (s0.y - last.y) * v.x
    intersectsRingGo s e v prev (s0 :: rest)

/-- `Polygon.intersects` from `polygon.js`. -/
def polyIntersects (rings : List Ring) (s e : Pt) : Bool :=
  rings.any (intersectsRing s e)

/-- A point of a segment, `onSeg` generalized to explicit rational coordinates. -/
def onSegQ (qx qy : ℚ) (sg : Seg) : Prop :=
  ∃ u : ℚ, 0 ≤ u ∧ u ≤ 1 ∧
    qx = sg.x.val + u * sg.dx.val ∧ qy = sg.y.val + u * sg.dy.val

/-- The open segment from `s` to `e` (endpoints excluded) meets the boundary of
some ring: some interior point of the segment lies on some edge. -/
def openSegMeetsBoundary (s e : Pt) (rings : List Ring) : Prop :=
  ∃ t : ℚ, 0 < t ∧ t < 1 ∧ ∃ r ∈ rings, ∃ sg ∈ r,
    onSegQ (s.x.val + t * (e.x.val - s.x.val)) (s.y.val + t * (e.y.val - s.y.val)) sg

/-- The cross product of the edge vector of `sg` with the vector of the query
segment from `s` to `e`, as a rational. -/
def crossQ (s e : Pt) (sg : Seg) : ℚ :=
  sg.dx.val * (e.y.val - s.y.val) - sg.dy.val * (e.x.val - s.x.val)

/-- The intersection parameter along the query segment (rational). -/
def segTQ (s e : Pt) (sg : Seg) : ℚ :=
  ((s.x.val - sg.x.val) * sg.dy.val - (s.y.val - sg.y.val) * sg.dx.val) / crossQ s e sg

/-- The intersection parameter along the edge (rational). -/
def edgeTQ (s e : Pt) (sg : Seg) : ℚ :=
  ((s.x.val - sg.x.val) * (e.y.val - s.y.val)
    - (s.y.val - sg.y.val) * (e.x.val - s.x.val)) / crossQ s e sg

/-- The open segment from `s` to `e` properly crosses the edge `sg`: the lines
are not parallel, the intersection parameter along the segment is strictly
inside `(0, 1)` and along the edge within `[0, 1]` (this is the same
cross-product crossing test that union discovery performs, with the segment's
endpoints excluded). -/
def properCrossing (s e : Pt) (sg : Seg) : Prop :=
  crossQ s e sg ≠ 0 ∧ 0 < segTQ s e sg ∧ segTQ s e sg < 1 ∧
    0 ≤ edgeTQ s e sg ∧ edgeTQ s e sg ≤ 1

theorem qeq_val {a b : Exq} (ha : a.Pos) (hb : b.Pos) (h : a.qeq b = true) :
    a.val = b.val :=
  (Exq.val_qeq ha hb).mp h

/-- If the open segment properly crosses the edge `sg`, then the edge-loop body
of `intersects` returns `true` at `sg`, whatever the previous edge's cross
product was. -/
theorem properCrossing_step {s e : Pt} {sg : Seg} (hsg : SegPos sg)
    (hs : PtPos s) (he : PtPos e) (h : properCrossing s e sg) (pc : Exq) :
    intersectsSegStep s e ⟨e.x - s.x, e.y - s.y⟩ pc
      (sg.dx * (e.y - s.y) - sg.dy * (e.x - s.x)) sg = true := by
  obtain ⟨hgx, hgy, hgdx, hgdy⟩ := hsg
  obtain ⟨hsx, hsy⟩ := hs
  obtain ⟨hex, hey⟩ := he
  obtain ⟨hc0, hseg0, hseg1, hedge0, hedge1⟩ := h
  have hvx : (e.x - s.x).Pos := Exq.Pos.sub hex hsx
  have hvy : (e.y - s.y).Pos := Exq.Pos.sub hey hsy
  have hdxP : (s.x - sg.x).Pos := Exq.Pos.sub hsx hgx
  have hdyP : (s.y - sg.y).Pos := Exq.Pos.sub hsy hgy
  have hcrossP : (sg.dx * (e.y - s.y) - sg.dy * (e.x - s.x)).Pos :=
    Exq.Pos.sub (Exq.Pos.mul hgdx hvy) (Exq.Pos.mul hgdy hvx)
  have hcrossV : (sg.dx * (e.y - s.y) - sg.dy * (e.x - s.x)).val = crossQ s e sg := by
    rw [Exq.val_sub (Exq.Pos.mul hgdx hvy) (Exq.Pos.mul hgdy hvx),
      Exq.val_mul hgdx hvy, Exq.val_mul hgdy hvx,
      Exq.val_sub hey hsy, Exq.val_sub hex hsx, crossQ]
  have hnumSegP : ((s.x - sg.x) * sg.dy - (s.y - sg.y) * sg.dx).Pos :=
    Exq.Pos.sub (Exq.Pos.mul hdxP hgdy) (Exq.Pos.mul hdyP hgdx)
  have hnumSegV : ((s.x - sg.x) * sg.dy - (s.y - sg.y) * sg.dx).val
      = (s.x.val - sg.x.val) * sg.dy.val - (s.y.val - sg.y.val) * sg.dx.val := by
    rw [Exq.val_sub (Exq.Pos.mul hdxP hgdy) (Exq.Pos.mul hdyP hgdx),
      Exq.val_mul hdxP hgdy, Exq.val_mul hdyP hgdx,
      Exq.val_sub hsx hgx, Exq.val_sub hsy hgy]
  have hnumEdgeP : ((s.x - sg.x) * (e.y - s.y) - (s.y - sg.y) * (e.x - s.x)).Pos :=
    Exq.Pos.sub (Exq.Pos.mul hdxP hvy) (Exq.Pos.mul hdyP hvx)
  have hnumEdgeV : ((s.x - sg.x) * (e.y - s.y) - (s.y - sg.y) * (e.x - s.x)).val
      = (s.x.val - sg.x.val) * (e.y.val - s.y.val)
        - (s.y.val - sg.y.val) * (e.x.val - s.x.val) := by
    rw [Exq.val_sub (Exq.Pos.mul hdxP hvy) (Exq.Pos.mul hdyP hvx),
      Exq.val_mul hdxP hvy, Exq.val_mul hdyP hvx,
      Exq.val_sub hsx hgx, Exq.val_sub hsy hgy,
      Exq.val_sub hey hsy, Exq.val_sub hex hsx]
  have hsegTV : (((s.x - sg.x) * sg.dy - (s.y - sg.y) * sg.dx)
      / (sg.dx * (e.y - s.y) - sg.dy * (e.x - s.x))).val = segTQ s e sg := by
    rw [Exq.val_div, hnumSegV, hcrossV, segTQ]
  have hedgeTV : (((s.x - sg.x) * (e.y - s.y) - (s.y - sg.y) * (e.x - s.x))
      / (sg.dx * (e.y - s.y) - sg.dy * (e.x - s.x))).val = edgeTQ s e sg := by
    rw [Exq.val_div, hnumEdgeV, hcrossV, edgeTQ]
  have hsegTP : (((s.x - sg.x) * sg.dy - (s.y - sg.y) * sg.dx)
      / (sg.dx * (e.y - s.y) - sg.dy * (e.x - s.x))).Pos := Exq.Pos.div hnumSegP
  have hedgeTP : (((s.x - sg.x) * (e.y - s.y) - (s.y - sg.y) * (e.x - s.x))
      / (sg.dx * (e.y - s.y) - sg.dy * (e.x - s.x))).Pos := Exq.Pos.div hnumEdgeP
  unfold intersectsSegStep
  rw [if_neg ?hb1]
  case hb1 =>
    rintro ⟨h1, h2⟩
    have hx0 : s.x.val = sg.x.val := qeq_val hsx hgx h1
    have hy0 : s.y.val = sg.y.val := qeq_val hsy hgy h2
    rw [segTQ, hx0, hy0] at hseg0
    simp at hseg0
  rw [if_neg ?hb2]
  case hb2 =>
    rintro ⟨h1, h2⟩
    have hx0 : e.x.val = sg.x.val := qeq_val hex hgx h1
    have hy0 : e.y.val = sg.y.val := qeq_val hey hgy h2
    have hnum : (s.x.val - sg.x.val) * sg.dy.val - (s.y.val - sg.y.val) * sg.dx.val
        = crossQ s e sg := by
      rw [← hx0, ← hy0, crossQ]
      ring
    rw [segTQ, hnum, div_self hc0] at hseg1
    exact lt_irrefl 1 hseg1
  rw [if_neg ?hb3]
  case hb3 =>
    intro hq
    exact hc0 (by rw [← hcrossV]; exact qeq_zero_val hcrossP hq)
  dsimp only
  rw [if_neg ?hb4]
  case hb4 =>
    rintro (hlt | hlt | hlt | hlt)
    · rw [Exq.val_lt hedgeTP (Exq.pos_ofNat 0), hedgeTV, Exq.ofNat_val] at hlt
      simp at hlt
      linarith
    · rw [Exq.val_lt (Exq.pos_ofNat 1) hedgeTP, hedgeTV, Exq.ofNat_val] at hlt
      simp at hlt
      linarith
    · rw [Exq.val_lt hsegTP (Exq.pos_ofNat 0), hsegTV, Exq.ofNat_val] at hlt
      simp at hlt
      linarith
    · rw [Exq.val_lt (Exq.pos_ofNat 1) hsegTP, hsegTV, Exq.ofNat_val] at hlt
      simp at hlt
      linarith
  rw [if_pos ?hb5]
  case hb5 =>
    constructor
    · rw [Exq.val_lt (Exq.pos_ofNat 0) hsegTP, hsegTV, Exq.ofNat_val]
      simpa using hseg0
    · rw [Exq.val_lt hsegTP (Exq.pos_ofNat 1), hsegTV, Exq.ofNat_val]
      simpa using hseg1

/-- If some edge of the list always triggers, the edge loop returns `true`. -/
theorem intersectsRingGo_true {s e v : Pt} {sg : Seg} (l : List Seg) (hmem : sg ∈ l)
    (htrig : ∀ pc : Exq,
      intersectsSegStep s e v pc (sg.dx * v.y - sg.dy * v.x) sg = true) :
    ∀ prev : Exq, intersectsRingGo s e v prev l = true := by
  induction l with
  | nil => cases hmem
  | cons a rest ih =>
    intro prev
    rcases List.mem_cons.mp hmem with heq | hm
    · subst heq
      unfold intersectsRingGo
      dsimp only
      rw [if_pos (htrig prev)]
    · unfold intersectsRingGo
      dsimp only
      split
      · rfl
      · exact ih hm _

theorem intersectsRing_true {s e : Pt} {r : Ring} {sg : Seg} (hmem : sg ∈ r)
    (htrig : ∀ pc : Exq,
      intersectsSegStep s e ⟨e.x - s.x, e.y - s.y⟩ pc
        (sg.dx * (e.y - s.y) - sg.dy * (e.x - s.x)) sg = true) :
    intersectsRing s e r = true := by
  cases r with
  | nil => cases hmem
  | cons s0 rest =>
    unfold intersectsRing
    exact intersectsRingGo_true (s0 :: rest) hmem htrig _

/-- C5, amended.  `intersects` returns `true` whenever the open query segment
properly crosses an edge of some ring (the sufficiency direction of the claim);
the converse direction of the claim is false: `intersects` can also return
`true` when only an endpoint of the segment touches the boundary, as the second
conjunct's input (used by the counterexample) shows. -/
theorem c5_intersects_amended :
    (∀ (rings : List Ring) (s e : Pt),
      (∀ r ∈ rings, ∀ sg ∈ r, SegPos sg) → PtPos s → PtPos e →
      (∃ r ∈ rings, ∃ sg ∈ r, properCrossing s e sg) →
      polyIntersects rings s e = true) ∧
    polyIntersects [sqRing] (iPt 0 5) (iPt (-5) 5) = true := by
  refine ⟨fun rings s e hpos hs he h => ?_, by decide⟩
  obtain ⟨r, hr, sg, hsg, hpc⟩ := h
  unfold polyIntersects
  rw [List.any_eq_true]
  exact ⟨r, hr, intersectsRing_true hsg
    (properCrossing_step (hpos r hr sg hsg) hs he hpc)⟩

/-- Witness for C5's amended theorem: the segment `(5,-5) → (5,5)` properly
crosses the bottom edge of the square, and `intersects` reports `true`. -/
theorem c5_intersects_amended_witness :
    polyIntersects [sqRing] (iPt 5 (-5)) (iPt 5 5) = true := by
  refine c5_intersects_amended.1 [sqRing] (iPt 5 (-5)) (iPt 5 5) (by decide)
    (by decide) (by decide) ⟨sqRing, List.mem_singleton_self sqRing,
      ⟨⟨0, 1⟩, ⟨0, 1⟩, ⟨10, 1⟩, ⟨0, 1⟩⟩, by decide, ?_, ?_, ?_, ?_, ?_⟩ <;>
    norm_num [crossQ, segTQ, edgeTQ, iPt, Exq.ofInt, Exq.val]

/-- C5, counterexample.  For the square ring and the segment from `(0,5)` (a
boundary point) to `(-5,5)` (outside), `intersects` returns `true`, yet the
open segment (endpoints excluded) never meets the boundary at all — so it
certainly does not cross it, refuting the "only if" direction of the claim. -/
theorem c5_intersects_counterexample :
    polyIntersects [sqRing] (iPt 0 5) (iPt (-5) 5) = true ∧
      ¬ openSegMeetsBoundary (iPt 0 5) (iPt (-5) 5) [sqRing] := by
  refine ⟨by decide, ?_⟩
  rintro ⟨t, ht0, ht1, r, hr, sg, hsg, u, hu0, hu1, hx, hy⟩
  rw [List.mem_singleton] at hr
  subst hr
  simp only [sqRing, expand, expandGo, iPt, List.mem_cons, List.not_mem_nil,
    or_false] at hsg
  rcases hsg with rfl | rfl | rfl | rfl <;>
    · norm_num [Exq.val, Exq.ofInt, Exq.neg_n, Exq.neg_d,
        Exq.sub_n, Exq.sub_d, iPt] at hx
      linarith

/-! ## Claim C7: flood fill -/

/-- Order helper: `<` on `Exq` is irreflexive without any assumptions. -/
theorem Exq.lt_irrefl (a : Exq) : ¬a < a := by
  rw [Exq.lt_def]
  omega

/-- Order helper: `¬(a < b)` means `b ≤ a` (raw cross-multiplied integers). -/
theorem Exq.not_lt_iff {a b : Exq} : ¬a < b ↔ b ≤ a := by
  rw [Exq.lt_def, Exq.le_def]
  omega

/-- Order helper: transitivity on positive-denominator values. -/
theorem Exq.lt_trans {a b c : Exq} (ha : a.Pos) (hb : b.Pos) (hc : c.Pos)
    (h1 : a < b) (h2 : b < c) : a < c := by
  rw [Exq.val_lt ha hb] at h1
  rw [Exq.val_lt hb hc] at h2
  exact (Exq.val_lt ha hc).mpr (h1.trans h2)

theorem Exq.lt_of_le_of_lt {a b c : Exq} (ha : a.Pos) (hb : b.Pos) (hc : c.Pos)
    (h1 : a ≤ b) (h2 : b < c) : a < c := by
  rw [Exq.val_le ha hb] at h1
  rw [Exq.val_lt hb hc] at h2
  exact (Exq.val_lt ha hc).mpr (h1.trans_lt h2)

theorem area_posd {r : Ring} (h : ∀ s ∈ r, SegPos s) : (area r).Pos :=
  Exq.Pos.div (areaSum_pos h)

/-- `smallestI < 0 || areas[i] < areas[smallestI]` from `floodFill`. -/
def betterThan (best : Option Ring) (r : Ring) : Prop :=
  match best with
  | none => True
  | some b => area r < area b

instance (best : Option Ring) (r : Ring) : Decidable (betterThan best r) :=
  match best with
  | none => isTrue trivial
  | some b => inferInstanceAs (Decidable (area r < area b))

/-- One step of the smallest-ring search loop in `Polygon.floodFill`. -/
def ffStep (p : Pt) (best : Option Ring) (r : Ring) : Option Ring :=
  if 0 < area r ∧ containsR r p = true ∧ betterThan best r then some r else best

/-- The first loop of `Polygon.floodFill` in `polygon.js`: find the smallest
positive-area ring that contains the point (first index wins ties). -/
def ffSmallest (rings : List Ring) (p : Pt) : Option Ring :=
  rings.foldl (ffStep p) none

/-- The condition under which the second loop of `floodFill` keeps a hole:
negative area, inside the chosen `smallest` ring, and not nested inside any
ring of the polygon with strictly smaller (more negative) area. -/
def keptHole (rings : List Ring) (smallest r : Ring) : Prop :=
  area r < 0 ∧ ringContainsRing smallest r = true ∧
    ¬∃ r2 ∈ rings, area r2 < area r ∧ ringContainsRing r2 r = true

instance (rings : List Ring) (smallest r : Ring) :
    Decidable (keptHole rings smallest r) := by
  unfold keptHole; infer_instance

/-- `Polygon.floodFill` from `polygon.js`. -/
def floodFill (rings : List Ring) (p : Pt) : List Ring :=
  match ffSmallest rings p with
  | none => []
  | some smallest =>
    smallest :: rings.filter (fun r => decide (keptHole rings smallest r))

/-- Goodness: a positive-area ring containing the point. -/
def ffGood (p : Pt) (r : Ring) : Prop := 0 < area r ∧ containsR r p = true

theorem ffSmallest_fold_none {p : Pt} (l : List Ring)
    (h : ∀ r ∈ l, ¬ffGood p r) :
    ∀ acc : Option Ring, l.foldl (ffStep p) acc = acc := by
  induction l with
  | nil => intro acc; rfl
  | cons a rest ih =>
    intro acc
    rw [List.foldl_cons]
    have hcond : ¬(0 < area a ∧ containsR a p = true ∧ betterThan acc a) := by
      rintro ⟨h1, h2, _⟩
      exact h a (List.mem_cons_self a rest) ⟨h1, h2⟩
    rw [ffStep, if_neg hcond]
    exact ih (fun r hr => h r (List.mem_cons_of_mem a hr)) acc

/-- Specification of the fold in `ffSmallest`: a `some sm` result comes from
the list (and is a positive containing ring) or is the seed; no good ring of
the list beats it; and it is no worse than the seed. -/
theorem ffSmallest_fold_some {p : Pt} (l : List Ring)
    (hl : ∀ r ∈ l, (area r).Pos) :
    ∀ (acc : Option Ring) (sm : Ring),
      (∀ b, acc = some b → (area b).Pos) →
      l.foldl (ffStep p) acc = some sm →
      ((sm ∈ l ∧ ffGood p sm) ∨ acc = some sm) ∧
        (∀ r ∈ l, ffGood p r → ¬(area r < area sm)) ∧
        (∀ b, acc = some b → ¬(area b < area sm)) := by
  induction l with
  | nil =>
    intro acc sm _ h
    refine ⟨Or.inr h, fun r hr => absurd hr (List.not_mem_nil r), fun b hb => ?_⟩
    rw [hb] at h
    cases h
    exact Exq.lt_irrefl (area sm)
  | cons a rest ih =>
    intro acc sm hacc h
    rw [List.foldl_cons] at h
    have ha : (area a).Pos := hl a (List.mem_cons_self a rest)
    have hrest : ∀ r ∈ rest, (area r).Pos := fun r hr => hl r (List.mem_cons_of_mem a hr)
    by_cases hcond : (0 < area a ∧ containsR a p = true ∧ betterThan acc a)
    · rw [ffStep, if_pos hcond] at h
      obtain ⟨hmem, hmin, hseed⟩ := ih hrest (some a) sm
        (fun b hb => by cases hb; exact ha) h
      have hna : ¬(area a < area sm) := hseed a rfl
      have hsmP : (area sm).Pos := by
        rcases hmem with ⟨hm, _⟩ | heq
        · exact hrest sm hm
        · cases heq; exact ha
      refine ⟨?_, ?_, ?_⟩
      · rcases hmem with ⟨hm, hg⟩ | heq
        · exact Or.inl ⟨List.mem_cons_of_mem a hm, hg⟩
        · cases heq
          exact Or.inl ⟨List.mem_cons_self a rest, hcond.1, hcond.2.1⟩
      · intro r hr hg
        rcases List.mem_cons.mp hr with rfl | hm
        · exact hna
        · exact hmin r hm hg
      · intro b hb
        have hab : area a < area b := by
          have hbt := hcond.2.2
          rw [hb] at hbt
          exact hbt
        intro hbs
        exact hna (Exq.lt_trans ha (hacc b hb) hsmP hab hbs)
    · rw [ffStep, if_neg hcond] at h
      obtain ⟨hmem, hmin, hseed⟩ := ih hrest acc sm hacc h
      have hsmP : (area sm).Pos := by
        rcases hmem with ⟨hm, _⟩ | heq
        · exact hrest sm hm
        · exact hacc sm heq
      refine ⟨?_, ?_, hseed⟩
      · rcases hmem with ⟨hm, hg⟩ | heq
        · exact Or.inl ⟨List.mem_cons_of_mem a hm, hg⟩
        · exact Or.inr heq
      · intro r hr hg
        rcases List.mem_cons.mp hr with rfl | hm
        · cases hacc2 : acc with
          | none =>
            rw [hacc2] at hcond
            exact absurd ⟨hg.1, hg.2, trivial⟩ hcond
          | some b =>
            have hnb : ¬(area r < area b) := by
              intro hc
              rw [hacc2] at hcond
              exact hcond ⟨hg.1, hg.2, hc⟩
            have hbP : (area b).Pos := hacc b hacc2
            intro hrs
            exact hseed b hacc2
              (Exq.lt_of_le_of_lt hbP (hl r hr) hsmP (Exq.not_lt_iff.mp hnb) hrs)
        · exact hmin r hm hg

/-- A second solid square far away from `sqRing`. -/
def farRing : Ring := expand [iPt 100 100, iPt 110 100, iPt 110 110, iPt 100 110]

/-- A 20×20 solid ring. -/
def ffOuter : Ring := expand [iPt 0 0, iPt 20 0, iPt 20 20, iPt 0 20]

/-- A small hole inside `ffOuter`. -/
def ffInnerHole : Ring := expand [iPt 2 2, iPt 2 6, iPt 6 6, iPt 6 2]

/-- A giant hole ring that contains everything above. -/
def ffGiantHole : Ring :=
  expand [iPt (-100) (-100), iPt (-100) 100, iPt 100 100, iPt 100 (-100)]

/-- C7, counterexample.  In the polygon `[ffOuter, ffInnerHole, ffGiantHole]`,
flood-filling from `(10,10)` keeps only the outer solid ring.  The inner hole
is negative, directly nested inside the kept smallest ring, and the result
contains no (other) kept hole at all — so under the claim it should have been
kept — yet the code discards it, because the code tests nesting against every
more-negative ring of the polygon (here the giant hole, which is itself
discarded), not just against kept holes. -/
theorem c7_flood_fill_counterexample :
    floodFill [ffOuter, ffInnerHole, ffGiantHole] (iPt 10 10) = [ffOuter] ∧
    area ffInnerHole < 0 ∧
    ringContainsRing ffOuter ffInnerHole = true ∧
    (∀ h ∈ floodFill [ffOuter, ffInnerHole, ffGiantHole] (iPt 10 10),
      ¬(area h < 0)) := by
  decide

/-- C7, amended.  If no positive-area ring contains the point the result is
empty.  Otherwise the code keeps the first positive-area containing ring with
minimal area, plus exactly the negative-area rings nested inside it that are
not nested inside any ring of the polygon of strictly more negative area —
whether or not that ring is itself kept.  Seeding inside one of two disjoint
squares keeps only that square. -/
theorem c7_flood_fill_amended :
    (∀ (rings : List Ring) (p : Pt),
      (∀ r ∈ rings, ¬(0 < area r ∧ containsR r p = true)) →
      floodFill rings p = []) ∧
    (∀ (rings : List Ring) (p : Pt) (sm : Ring),
      (∀ r ∈ rings, (area r).Pos) →
      ffSmallest rings p = some sm →
      sm ∈ rings ∧ 0 < area sm ∧ containsR sm p = true ∧
        (∀ r ∈ rings, 0 < area r ∧ containsR r p = true → ¬(area r < area sm)) ∧
        floodFill rings p =
          sm :: rings.filter (fun r => decide (keptHole rings sm r))) ∧
    floodFill [sqRing, farRing] (iPt 2 2) = [sqRing] := by
  refine ⟨fun rings p h => ?_, fun rings p sm hpos hsm => ?_, by decide⟩
  · have hnone : ffSmallest rings p = none :=
      ffSmallest_fold_none rings (fun r hr hg => h r hr ⟨hg.1, hg.2⟩) none
    unfold floodFill
    rw [hnone]
  · obtain ⟨hmem, hmin, _⟩ := ffSmallest_fold_some rings hpos none sm
      (fun b hb => Option.noConfusion hb) hsm
    rcases hmem with ⟨hm, hg⟩ | heq
    · refine ⟨hm, hg.1, hg.2, fun r hr hgr => hmin r hr hgr, ?_⟩
      unfold floodFill
      rw [hsm]
    · exact Option.noConfusion heq

/-- Witness for C7's amended theorem: the two-disjoint-squares polygon, seeded
inside `sqRing`. -/
theorem c7_flood_fill_amended_witness :
    floodFill [sqRing, farRing] (iPt 2 2) = sqRing ::
      [sqRing, farRing].filter
        (fun r => decide (keptHole [sqRing, farRing] sqRing r)) :=
  (c7_flood_fill_amended.2.1 [sqRing, farRing] (iPt 2 2) sqRing (by decide)
    (by decide)).2.2.2.2

/-! ## Boolean union (`Polygon._union` from `polygon.js`) -/

/-- An intersection record.  During step 1 (`pIntersections`) `order` is the
position along P, `qOrder` the position along Q and `index` is unused; during
step 2 (`qIntersections`) `order` is the position along Q and `index` is the
index of the matching amplified P-side vertex. -/
structure Inter where
  px : Exq
  py : Exq
  order : Exq
  qOrder : Exq
  index : ℕ
  entering : Bool
deriving DecidableEq, Repr

/-- Step 1 intersection discovery: every edge of `part` against every edge of
`ring`, skipping parallel pairs and solving with cross products. -/
def discover (part ring : Ring) (qIsHole : Bool) : List Inter :=
  part.enum.flatMap fun pi =>
    ring.enum.filterMap fun qi =>
      let ps := pi.2
      let qs := qi.2
      let cross := ps.dx * qs.dy - ps.dy * qs.dx
      if cross.qeq 0 then none
      else
        let dx := qs.x - ps.x
        let dy := qs.y - ps.y
        let pC := dx * qs.dy - dy * qs.dx
        let pT := pC / cross
        if pT < 0 ∨ 1 < pT then none
        else
          let qC := dx * ps.dy - dy * ps.dx
          let qT := qC / cross
          if qT < 0 ∨ 1 < qT then none
          else some
            { px := ps.x + ps.dx * pC / cross
              py := ps.y + ps.dy * pC / cross
              order := Exq.jsMod (Exq.ofInt pi.1 + pT) (Exq.ofInt part.length)
              qOrder := Exq.jsMod (Exq.ofInt qi.1 + qT) (Exq.ofInt ring.length)
              index := 0
              entering := decide (0 < cross) != qIsHole }

/-- Stable insertion into a list sorted by ascending `order` (new element goes
after existing elements of equal order, as the stable JavaScript sort does). -/
def insertByOrder (x : Inter) : List Inter → List Inter
  | [] => [x]
  | y :: rest => if y.order ≤ x.order then y :: insertByOrder x rest else x :: y :: rest

/-- Stable sort by ascending `order`. -/
def sortByOrder (l : List Inter) : List Inter :=
  l.foldl (fun acc x => insertByOrder x acc) []

/-- First pass of `removeDoubles`, inner loop: `x` is the first element of the
current run of equal orders, `ent` the number of entering flags seen in the
run, `total` the run's size so far.  The run's representative `x` survives only
if all of the run's flags agree. -/
def removeRunsGo : Inter → ℕ → ℕ → List Inter → List Inter
  | x, ent, total, [] => if ent = 0 ∨ ent = total then [x] else []
  | x, ent, total, y :: rest =>
    if y.order.qeq x.order then
      removeRunsGo x (ent + if y.entering then 1 else 0) (total + 1) rest
    else
      (if ent = 0 ∨ ent = total then [x] else []) ++
        removeRunsGo y (if y.entering then 1 else 0) 1 rest

/-- First pass of `removeDoubles`: keep the first element of each run of equal
orders only if all elements of the run have the same `entering` flag. -/
def removeRuns : List Inter → List Inter
  | [] => []
  | x :: rest => removeRunsGo x (if x.entering then 1 else 0) 1 rest

/-- Second pass of `removeDoubles`: drop elements whose `entering` flag equals
the previous kept flag, seeded with the last element's flag. -/
def trimAdjacent : Bool → List Inter → List Inter
  | _, [] => []
  | was, x :: rest =>
    if x.entering != was then x :: trimAdjacent (!was) rest else trimAdjacent was rest

/-- `removeDoubles` from `polygon.js`. -/
def removeDoubles (l : List Inter) : List Inter :=
  let l1 := removeRuns l
  match l1.getLast? with
  | none => []
  | some last => trimAdjacent last.entering l1

/-- One record of the amplified vertex list: a vertex with an optional link
(`-1` means none) to another record of the same list. -/
structure AVert where
  link : ℤ
  x : Exq
  y : Exq
deriving DecidableEq, Repr

/-- Set the link field of record `i`. -/
def setLinkAt : List AVert → ℕ → ℤ → List AVert
  | [], _, _ => []
  | v :: rest, 0, nl => ⟨nl, v.x, v.y⟩ :: rest
  | v :: rest, n + 1, nl => v :: setLinkAt rest n nl

/-- The vertex-advancing loop of `amplify`: emit plain vertices while the next
vertex position is at most the intersection's order (skipping a vertex that
coincides exactly with the intersection). -/
def advanceVerts (ord : Exq) : ℕ → List Seg → List AVert → ℕ × List Seg × List AVert
  | index, [], amp => (index, [], amp)
  | index, sg :: rest, amp =>
    if Exq.ofInt index ≤ ord then
      advanceVerts ord (index + 1) rest
        (if (Exq.ofInt index).qeq ord then amp else amp ++ [⟨-1, sg.x, sg.y⟩])
    else (index, sg :: rest, amp)

/-- `amplify` specialized to step 1 (a part of P): each intersection is pushed
into the amplified list and recorded in `qInts`, keyed by its Q-order and
remembering its amplified index. -/
def amplifyP (start : ℕ) : List Inter → ℕ → List Seg → List AVert → List Inter →
    List AVert × List Inter
  | [], _, verts, amp, qInts =>
    ((verts.foldl (fun a sg => a ++ [⟨-1, sg.x, sg.y⟩]) amp) ++ [⟨(start : ℤ), 0, 0⟩],
      qInts)
  | it :: rest, index, verts, amp, qInts =>
    match advanceVerts it.order index verts amp with
    | (index2, verts2, amp2) =>
      amplifyP start rest index2 verts2 (amp2 ++ [⟨-1, it.px, it.py⟩])
        (qInts ++ [⟨it.px, it.py, it.qOrder, 0, amp2.length, it.entering⟩])

/-- `amplify` specialized to step 2 (Q): entering intersections are recorded as
possible trace starts and link back to their P-side record; exiting ones give
their P-side record a forward link. -/
def amplifyQ (start : ℕ) : List Inter → ℕ → List Seg → List AVert → List ℕ →
    List AVert × List ℕ
  | [], _, verts, amp, ent =>
    ((verts.foldl (fun a sg => a ++ [⟨-1, sg.x, sg.y⟩]) amp) ++ [⟨(start : ℤ), 0, 0⟩],
      ent)
  | it :: rest, index, verts, amp, ent =>
    match advanceVerts it.order index verts amp with
    | (index2, verts2, amp2) =>
      let ent2 := if it.entering then ent ++ [amp2.length] else ent
      let amp3 := if it.entering then amp2 else setLinkAt amp2 it.index (amp2.length : ℤ)
      amplifyQ start rest index2 verts2
        (amp3 ++ [⟨if it.entering then (it.index : ℤ) else -1, it.px, it.py⟩]) ent2

/-- The trace loop of step 3: follow links (clearing each as it is used) and
emit plain vertices until back at the start index.  `fuel` bounds the number of
iterations; it only cuts off traces through corrupted link structures, which
the algorithm never produces. -/
def traceGo (idx : ℕ) : ℕ → ℕ → List AVert → List Pt → List AVert × List Pt
  | 0, _, amp, out => (amp, out)
  | fuel + 1, j, amp, out =>
    match amp.get? j with
    | none => (amp, out)
    | some v =>
      if v.link ≥ 0 then
        let amp2 := setLinkAt amp j (-1)
        let j2 := v.link.toNat
        if j2 = idx then (amp2, out) else traceGo idx fuel j2 amp2 out
      else
        let out2 := out ++ [⟨v.x, v.y⟩]
        let j2 := j + 1
        if j2 = idx then (amp, out2) else traceGo idx fuel j2 amp out2

/-- `tracePolygon` from `polygon.js`. -/
def tracePolygon (amp : List AVert) (idx : ℕ) : List AVert × List Pt :=
  traceGo idx ((amp.length + 1) * (amp.length + 1)) idx amp []

/-- Step 3: try each entering index whose link is still set, tracing an output
ring and keeping it if it has at least 3 vertices. -/
def traceAll : List ℕ → List AVert → List Ring → List Ring
  | [], _, result => result
  | idx :: rest, amp, result =>
    match amp.get? idx with
    | none => traceAll rest amp result
    | some v =>
      if v.link < 0 then traceAll rest amp result
      else
        match tracePolygon amp idx with
        | (amp2, out) =>
          traceAll rest amp2 (if 3 ≤ out.length then result ++ [expand out] else result)

/-- `!smallestContainer || ringContainsRing(smallestContainer, part)`. -/
def scBetter (sc : Option Ring) (part : Ring) : Prop :=
  match sc with
  | none => True
  | some b => ringContainsRing b part = true

instance (sc : Option Ring) (part : Ring) : Decidable (scBetter sc part) :=
  match sc with
  | none => isTrue trivial
  | some b => inferInstanceAs (Decidable (ringContainsRing b part = true))

/-- The running state of `_union`'s step 1. -/
structure UnionSt where
  result : List Ring
  qInts : List Inter
  amp : List AVert
  sc : Option Ring
deriving Repr

/-- Step 1, one part of P: discover and clean up intersections; a part with
none is copied (unless Q swallows it) and considered as a container candidate;
a part with intersections is amplified. -/
def unionPart (ring : Ring) (qIsHole : Bool) (st : UnionSt) (part : Ring) : UnionSt :=
  let pInts := removeDoubles (sortByOrder (discover part ring qIsHole))
  match pInts with
  | [] =>
    if ringContainsRing ring part = true then st
    else
      { st with
        result := st.result ++ [part]
        sc := if ringContainsRing part ring = true ∧ scBetter st.sc part
          then some part else st.sc }
  | _ =>
    match amplifyP st.amp.length pInts 0 part st.amp st.qInts with
    | (amp2, qInts2) => { st with qInts := qInts2, amp := amp2 }

/-- `Polygon._union` from `polygon.js`: merge the simple ring `ring` into the
polygon `rings`. -/
def unionRing (rings : List Ring) (ring : Ring) : List Ring :=
  let qIsHole := isHole ring
  let st := rings.foldl (unionPart ring qIsHole) ⟨[], [], [], none⟩
  match st.qInts with
  | [] =>
    let containerIsHole := match st.sc with | none => true | some c => isHole c
    if containerIsHole != qIsHole then st.result ++ [ring] else st.result
  | _ =>
    match amplifyQ st.amp.length (sortByOrder st.qInts) 0 ring st.amp [] with
    | (amp2, entIdx) => traceAll entIdx amp2 st.result

/-! ## Paths initialization (`paths.js`) -/

/-- The waypoint scan over one ring: `before` carries the previous edge's
vector; a vertex is recorded when `before × after ≤ 0`. -/
def ringWaypointsGo : Exq → Exq → List Seg → List Pt
  | _, _, [] => []
  | bvx, bvy, sg :: rest =>
    (if bvx * sg.dy - bvy * sg.dx ≤ 0 then [⟨sg.x, sg.y⟩] else []) ++
      ringWaypointsGo sg.dx sg.dy rest

/-- The waypoint scan of `Paths.init`: skip degenerate rings (< 3 vertices),
seed `before` with the closing edge's vector. -/
def ringWaypoints (part : Ring) : List Pt :=
  if part.length < 3 then []
  else
    match part.getLast? with
    | none => []
    | some l => ringWaypointsGo l.dx l.dy part

/-- All waypoints of a passable polygon, ring by ring. -/
def waypointsOf (rings : List Ring) : List Pt :=
  (rings.map ringWaypoints).flatten

/-- The passable polygon built by `Paths.init`: union every (nonempty) mask
ring — already placed in room coordinates — then flood-fill from the starting
point. -/
def initPassable (masks : List (List Pt)) (p : Pt) : List Ring :=
  floodFill (masks.foldl (fun acc m => if m.isEmpty then acc else
    unionRing acc (expand m)) []) p

/-- The waypoints recorded by `Paths.init`. -/
def initWaypoints (masks : List (List Pt)) (p : Pt) : List Pt :=
  waypointsOf (initPassable masks p)

/-! ## Claim C6: which vertices become waypoints -/

/-- Modelled from the spec's wording for the concavity test, with the amended
comparison: walking the vertex loop, the vertex `s` (with previous vertex
`prev` and next vertex `e`, the last vertex closing back to `p0`) is recorded
exactly when the cross product of `(s - prev)` and `(e - s)` is nonpositive. -/
def wpGo : Pt → Pt → List Pt → Pt → List Pt
  | prev, s, [], p0 =>
    if (s.x - prev.x) * (p0.y - s.y) - (s.y - prev.y) * (p0.x - s.x) ≤ 0
    then [s] else []
  | prev, s, e :: rest, p0 =>
    (if (s.x - prev.x) * (e.y - s.y) - (s.y - prev.y) * (e.x - s.x) ≤ 0
      then [s] else []) ++ wpGo s e rest p0

/-- The vertices of the loop `vs` whose cross product of (vertex − previous)
and (next − vertex) is nonpositive. -/
def wpSpec (vs : List Pt) : List Pt :=
  match vs with
  | [] => []
  | v0 :: rest => wpGo (rest.getLastD v0) v0 rest v0

theorem expandGo_length (p0 : Pt) : ∀ (s : Pt) (rest : List Pt),
    (expandGo p0 s rest).length = rest.length + 1 := by
  intro s rest
  induction rest generalizing s with
  | nil => rfl
  | cons e rest ih => simp [expandGo, ih]

theorem expand_length (vs : List Pt) : (expand vs).length = vs.length := by
  cases vs with
  | nil => rfl
  | cons v0 rest => simp [expand, expandGo_length]

theorem expandGo_getLast (p0 : Pt) : ∀ (s : Pt) (rest : List Pt),
    (expandGo p0 s rest).getLast? =
      some ⟨(rest.getLastD s).x, (rest.getLastD s).y,
        p0.x - (rest.getLastD s).x, p0.y - (rest.getLastD s).y⟩ := by
  intro s rest
  induction rest generalizing s with
  | nil => rfl
  | cons e rest ih =>
    show (Seg.mk s.x s.y (e.x - s.x) (e.y - s.y) :: expandGo p0 e rest).getLast? = _
    rw [List.getLast?_cons, List.getLastD_eq_getLast?, ih e]
    simp [List.getLast?_cons, List.getLastD_eq_getLast?]

theorem ringWaypointsGo_expandGo (p0 : Pt) : ∀ (prev s : Pt) (rest : List Pt),
    ringWaypointsGo (s.x - prev.x) (s.y - prev.y) (expandGo p0 s rest) =
      wpGo prev s rest p0 := by
  intro prev s rest
  induction rest generalizing prev s with
  | nil => simp [expandGo, ringWaypointsGo, wpGo]
  | cons e rest ih =>
    show ringWaypointsGo (s.x - prev.x) (s.y - prev.y)
        (Seg.mk s.x s.y (e.x - s.x) (e.y - s.y) :: expandGo p0 e rest) = _
    rw [ringWaypointsGo, wpGo, ih s e]

/-- C6's concrete passable region: a rectangle with one extra collinear vertex
at `(5,0)` on its bottom edge. -/
def c6Mask : List Pt := [iPt 0 0, iPt 5 0, iPt 10 0, iPt 10 10, iPt 0 10]

/-- C6, counterexample.  For a room whose single mask is a rectangle with an
extra collinear vertex `(5,0)` on its bottom edge, `Paths.init` keeps that
rectangle as the passable region and records `(5,0)` as a waypoint, although
the cross product of `(vertex − previous)` and `(next − vertex)` there — with
previous vertex `(0,0)` and next vertex `(10,0)` — is exactly `0`, not
negative: the code records waypoints for nonpositive cross products, not only
for negative ones. -/
theorem c6_waypoints_counterexample :
    initWaypoints [c6Mask] (iPt 2 2) = [iPt 5 0] ∧
    initPassable [c6Mask] (iPt 2 2) = [expand c6Mask] ∧
    ((Exq.ofInt 5 - Exq.ofInt 0) * (Exq.ofInt 0 - Exq.ofInt 0)
      - (Exq.ofInt 0 - Exq.ofInt 0) * (Exq.ofInt 10 - Exq.ofInt 5)).qeq 0 = true := by
  decide

/-- C6, amended.  During initialization, a ring of the passable region with at
least three vertices records exactly those vertices whose cross product of
`(vertex − previous)` and `(next − vertex)` is nonpositive (`≤ 0`, not `< 0`),
and no other vertices. -/
theorem c6_waypoints_amended :
    (∀ vs : List Pt, 3 ≤ vs.length → ringWaypoints (expand vs) = wpSpec vs) ∧
    initWaypoints [c6Mask] (iPt 2 2) = [iPt 5 0] := by
  refine ⟨fun vs h => ?_, by decide⟩
  match vs, h with
  | v0 :: rest, h =>
    unfold ringWaypoints
    rw [if_neg (by rw [expand_length]; omega)]
    show (match (expand (v0 :: rest)).getLast? with
      | none => []
      | some l => ringWaypointsGo l.dx l.dy (expand (v0 :: rest))) = _
    rw [show expand (v0 :: rest) = expandGo v0 v0 rest from rfl, expandGo_getLast]
    exact ringWaypointsGo_expandGo v0 (rest.getLastD v0) v0 rest

/-- Witness for C6's amended theorem: the waypoint characterization evaluated
on the collinear-vertex rectangle. -/
theorem c6_waypoints_amended_witness :
    ringWaypoints (expand c6Mask) = wpSpec c6Mask :=
  c6_waypoints_amended.1 c6Mask (by decide)

/-! ## Claim C2: the no-intersection fallback of `Polygon._union` -/

/-- The smallest-container update of step 1, folded over the parts that are
kept (those neither intersecting Q nor swallowed by it). -/
def scFold (ring : Ring) : Option Ring → List Ring → Option Ring
  | sc, [] => sc
  | sc, p :: rest =>
    scFold ring (if ringContainsRing p ring = true ∧ scBetter sc p then some p else sc) rest

/-- Under the no-surviving-intersections hypothesis, step 1 of `_union` copies
exactly the parts not contained in Q, leaves the intersection bookkeeping
empty, and folds the smallest-container update over the copied parts. -/
theorem unionFold (ring : Ring) (qIsHole : Bool) (l : List Ring)
    (h1 : ∀ part ∈ l, removeDoubles (sortByOrder (discover part ring qIsHole)) = []) :
    ∀ st : UnionSt,
      l.foldl (unionPart ring qIsHole) st =
        ⟨st.result ++ l.filter (fun p => !(ringContainsRing ring p)), st.qInts, st.amp,
          scFold ring st.sc (l.filter (fun p => !(ringContainsRing ring p)))⟩ := by
  induction l with
  | nil =>
    intro st
    cases st
    simp [scFold]
  | cons part rest ih =>
    intro st
    rw [List.foldl_cons]
    have hstep : unionPart ring qIsHole st part =
        (if ringContainsRing ring part = true then st
          else { st with
            result := st.result ++ [part]
            sc := if ringContainsRing part ring = true ∧ scBetter st.sc part
              then some part else st.sc }) := by
      unfold unionPart
      rw [h1 part (List.mem_cons_self part rest)]
    rw [hstep]
    have hrest : ∀ part ∈ rest, removeDoubles (sortByOrder
        (discover part ring qIsHole)) = [] :=
      fun p hp => h1 p (List.mem_cons_of_mem part hp)
    by_cases hc : ringContainsRing ring part = true
    · rw [if_pos hc, ih hrest st, List.filter_cons, hc]
      simp
    · have hfalse : ringContainsRing ring part = false := Bool.eq_false_iff.mpr hc
      rw [if_neg hc, ih hrest, List.filter_cons, hfalse]
      simp [scFold]

/-- The property the minimal container hypothesis gives every part. -/
def minProp (ring c p : Ring) : Prop :=
  ringContainsRing p ring = true →
    p = c ∨ (ringContainsRing p c = true ∧ ringContainsRing c p = false)

instance (ring c p : Ring) : Decidable (minProp ring c p) := by
  unfold minProp; infer_instance

/-- Once the fold holds the minimal container, it keeps it. -/
theorem scFold_keep (ring c : Ring) (l : List Ring)
    (h : ∀ p ∈ l, ringContainsRing p ring = true → p = c ∨ ringContainsRing c p = false) :
    scFold ring (some c) l = some c := by
  induction l with
  | nil => rfl
  | cons p rest ih =>
    rw [scFold]
    have hrest : ∀ p ∈ rest, ringContainsRing p ring = true →
        p = c ∨ ringContainsRing c p = false :=
      fun q hq => h q (List.mem_cons_of_mem p hq)
    by_cases hcond : ringContainsRing p ring = true ∧ scBetter (some c) p
    · rcases h p (List.mem_cons_self p rest) hcond.1 with rfl | hno
      · rw [if_pos hcond]
        exact ih hrest
      · exact absurd hcond.2 (by
          show ¬(ringContainsRing c p = true)
          rw [hno]
          exact Bool.false_ne_true)
    · rw [if_neg hcond]
      exact ih hrest

/-- With no containers in the list, the fold leaves the seed unchanged. -/
theorem scFold_none (ring : Ring) (l : List Ring)
    (h : ∀ p ∈ l, ringContainsRing p ring = false) :
    ∀ sc, scFold ring sc l = sc := by
  induction l with
  | nil => intro sc; rfl
  | cons p rest ih =>
    intro sc
    rw [scFold, if_neg]
    · exact ih (fun q hq => h q (List.mem_cons_of_mem p hq)) sc
    · rintro ⟨h1, _⟩
      rw [h p (List.mem_cons_self p rest)] at h1
      exact Bool.false_ne_true h1

/-- The fold of the smallest-container update finds the minimal container. -/
theorem scFold_min (ring c : Ring) : ∀ (l : List Ring) (sc : Option Ring),
    c ∈ l → ringContainsRing c ring = true →
    (∀ p ∈ l, minProp ring c p) →
    (∀ b, sc = some b → ringContainsRing b ring = true ∧ minProp ring c b) →
    scFold ring sc l = some c := by
  intro l
  induction l with
  | nil => intro sc hc; exact absurd hc (List.not_mem_nil c)
  | cons p rest ih =>
    intro sc hc hcr hall hsc
    have hrest : ∀ q ∈ rest, minProp ring c q :=
      fun q hq => hall q (List.mem_cons_of_mem p hq)
    by_cases hpc : p = c
    · subst hpc
      -- the head is the minimal container: the state becomes `some p` either
      -- by the update (seed beaten or empty) or because it already was `p`.
      have hkeep : ∀ q ∈ rest, ringContainsRing q ring = true →
          q = p ∨ ringContainsRing p q = false := by
        intro q hq hqr
        rcases hrest q hq hqr with h | ⟨_, h⟩
        · exact Or.inl h
        · exact Or.inr h
      rw [scFold]
      by_cases hcond : ringContainsRing p ring = true ∧ scBetter sc p
      · rw [if_pos hcond]
        exact scFold_keep ring p rest hkeep
      · -- the update did not fire: since `p` is a container, the seed must be
        -- `some b` with `¬ ringContainsRing b p`; by minimality `b = p`.
        cases hb : sc with
        | none =>
          rw [hb] at hcond
          exact absurd ⟨hcr, trivial⟩ hcond
        | some b =>
          obtain ⟨hbr, hbmin⟩ := hsc b hb
          rcases hbmin hbr with heq | ⟨hb1, _⟩
          · subst heq
            split <;> exact scFold_keep ring _ rest hkeep
          · rw [hb] at hcond
            exact absurd ⟨hcr, hb1⟩ hcond
    · have hcrest : c ∈ rest := by
        rcases List.mem_cons.mp hc with h | h
        · exact absurd h.symm hpc
        · exact h
      rw [scFold]
      by_cases hcond : ringContainsRing p ring = true ∧ scBetter sc p
      · rw [if_pos hcond]
        exact ih (some p) hcrest hcr hrest
          (fun b hb => by
            cases hb
            exact ⟨hcond.1, hall p (List.mem_cons_self p rest)⟩)
      · rw [if_neg hcond]
        exact ih sc hcrest hcr hrest hsc

/-- C2.  With no surviving intersections between Q and any part of P, `_union`
keeps exactly the parts of P not swallowed by Q, and appends Q exactly when
Q's polarity differs from the polarity of the smallest part of P that contains
Q (first conjunct), or — when no part contains Q — from the implicit exterior's
hole polarity (second conjunct).  In particular, unioning a hole-polarity ring
strictly inside a single solid ring yields exactly the two rings: the original
solid boundary and the new hole (third conjunct). -/
theorem c2_union_polarity :
    (∀ (rings : List Ring) (ring c : Ring),
      (∀ part ∈ rings,
        removeDoubles (sortByOrder (discover part ring (isHole ring))) = []) →
      c ∈ rings → ringContainsRing c ring = true →
      (∀ p ∈ rings, ringContainsRing ring p = true → ringContainsRing p ring = false) →
      (∀ p ∈ rings, minProp ring c p) →
      unionRing rings ring =
        rings.filter (fun p => !(ringContainsRing ring p)) ++
          (if isHole c != isHole ring then [ring] else [])) ∧
    (∀ (rings : List Ring) (ring : Ring),
      (∀ part ∈ rings,
        removeDoubles (sortByOrder (discover part ring (isHole ring))) = []) →
      (∀ p ∈ rings, ringContainsRing p ring = false) →
      unionRing rings ring =
        rings.filter (fun p => !(ringContainsRing ring p)) ++
          (if isHole ring then [] else [ring])) ∧
    unionRing [ffOuter] ffInnerHole = [ffOuter, ffInnerHole] := by
  refine ⟨fun rings ring c h1 hc hcr h4 h5 => ?_, fun rings ring h1 h2 => ?_, by decide⟩
  · have hst := unionFold ring (isHole ring) rings h1 ⟨[], [], [], none⟩
    have hrc : ringContainsRing ring c = false := by
      cases hrcc : ringContainsRing ring c with
      | false => rfl
      | true =>
        exact absurd hcr (by rw [h4 c hc hrcc]; exact Bool.false_ne_true)
    have hcfil : c ∈ rings.filter (fun p => !(ringContainsRing ring p)) :=
      List.mem_filter.mpr ⟨hc, by rw [hrc]; rfl⟩
    have hscv : scFold ring none (rings.filter (fun p => !(ringContainsRing ring p)))
        = some c :=
      scFold_min ring c _ none hcfil hcr
        (fun p hp => h5 p (List.mem_filter.mp hp).1)
        (fun b hb => Option.noConfusion hb)
    dsimp only at hst
    unfold unionRing
    dsimp only
    rw [hst]
    dsimp only
    rw [hscv]
    cases hpol : (isHole c != isHole ring) with
    | true => simp [hpol]
    | false => simp [hpol]
  · have hst := unionFold ring (isHole ring) rings h1 ⟨[], [], [], none⟩
    have hscv : scFold ring none (rings.filter (fun p => !(ringContainsRing ring p)))
        = none :=
      scFold_none ring _ (fun p hp => h2 p (List.mem_filter.mp hp).1) none
    dsimp only at hst
    unfold unionRing
    dsimp only
    rw [hst]
    dsimp only
    rw [hscv]
    cases hq : isHole ring with
    | true => simp [hq]
    | false => simp [hq]

/-- Witness for C2: the hole-inside-solid instance, obtained by applying the
general fallback theorem and evaluating its conclusion. -/
theorem c2_union_polarity_witness :
    unionRing [ffOuter] ffInnerHole = [ffOuter, ffInnerHole] := by
  have h := c2_union_polarity.1 [ffOuter] ffInnerHole ffOuter (by decide)
    (by decide) (by decide) (by decide) (by decide)
  rw [h]
  decide

/-! ## The pathfinder (`paths.js`): heap, state, `find` -/

/-- A sightline cached on a waypoint: the index of the other waypoint and the
distance to it. -/
structure Sightline where
  link : ℕ
  distance : Exq
deriving DecidableEq, Repr

/-- A queue entry of the A* search: the candidate path length (including the
heuristic) and the waypoint index. -/
structure Node where
  length : Exq
  index : ℕ
deriving DecidableEq, Repr

/-- List update that can also append one slot at the end (JavaScript
`els[i] = v` for `i ≤ els.length`, as the heap uses it). -/
def listSet {α : Type} : List α → ℕ → α → List α
  | [], _, v => [v]
  | _ :: rest, 0, v => v :: rest
  | x :: rest, n + 1, v => x :: listSet rest n v

/-- In-range list update (no extension). -/
def setAt {α : Type} : List α → ℕ → α → List α
  | [], _, _ => []
  | _ :: rest, 0, v => v :: rest
  | x :: rest, n + 1, v => x :: setAt rest n v

/-- Read a heap slot (in-range in every reachable state). -/
def getEl (els : List Node) (i : ℕ) : Node :=
  (els.get? i).getD ⟨0, 0⟩

/-- Read a waypoint's point. -/
def getPt (points : List Pt) (i : ℕ) : Pt :=
  (points.get? i).getD ⟨0, 0⟩

/-- The upward rotation of `Heap.insert` from `heap.js`.  The sort condition is
`a.length < b.length`.  The fuel only bounds the walk up the tree. -/
def heapInsertGo : ℕ → List Node → ℕ → Node → List Node
  | 0, els, index, elem => listSet els index elem
  | fuel + 1, els, index, elem =>
    if index = 0 then listSet els index elem
    else
      let parent := (index - 1) / 2
      if (getEl els parent).length < elem.length then listSet els index elem
      else heapInsertGo fuel (listSet els index (getEl els parent)) parent elem

/-- `Heap.insert` from `heap.js`. -/
def heapInsert (els : List Node) (elem : Node) : List Node :=
  heapInsertGo (els.length + 1) els els.length elem

/-- The downward rotation of `Heap.pop` from `heap.js`. -/
def heapPopGo (sinker : Node) : ℕ → List Node → ℕ → ℕ → List Node
  | 0, els, index, _ => listSet els index sinker
  | fuel + 1, els, index, child =>
    if child < els.length then
      let child2 := if child + 1 < els.length ∧
          (getEl els (child + 1)).length < (getEl els child).length
        then child + 1 else child
      if sinker.length < (getEl els child2).length then listSet els index sinker
      else heapPopGo sinker fuel (listSet els index (getEl els child2)) child2
        (child2 * 2 + 1)
    else listSet els index sinker

/-- `Heap.pop` from `heap.js`: return the top element and re-heapify by sinking
the last element. -/
def heapPop (els : List Node) : Option Node × List Node :=
  match els with
  | [] => (none, [])
  | top :: _ =>
    let sinker := getEl els (els.length - 1)
    let els2 := els.dropLast
    if els2.length = 0 then (some top, els2)
    else (some top, heapPopGo sinker (els2.length + 1) els2 0 1)

/-- The persistent state of a `Paths` object: the passable polygon, the
waypoint positions, and each waypoint's lazily filled sightline cache. -/
structure PathsSt where
  passable : List Ring
  points : List Pt
  caches : List (List Sightline)
deriving Repr

/-- `Paths.init` from `paths.js`: build the passable polygon, extract the
waypoints, and start with empty sightline caches. -/
def pathsInit (masks : List (List Pt)) (p : Pt) : PathsSt :=
  let pass := initPassable masks p
  let wps := waypointsOf pass
  ⟨pass, wps, wps.map fun _ => []⟩

/-- `Paths._findSightlines` from `paths.js`: all other waypoints whose
connecting segment does not intersect the passable polygon.  The distance
function is a parameter because the source computes `Math.hypot`, an
irrational the embedding keeps abstract. -/
def findSightlines (passable : List Ring) (points : List Pt)
    (dist : Pt → Pt → Exq) (index : ℕ) : List Sightline :=
  points.enum.filterMap fun iw =>
    if iw.1 = index then none
    else if polyIntersects passable (getPt points index) iw.2 then none
    else some ⟨iw.1, dist iw.2 (getPt points index)⟩

/-- `Paths._closestVertex` from `paths.js`: the first vertex (in ring order)
at minimal distance from the target. -/
def closestVertex (rings : List Ring) (dist : Pt → Pt → Exq) (target : Pt) : Pt :=
  ((rings.map fun r => r.map fun sg => Pt.mk sg.x sg.y).flatten.foldl
    (fun acc v =>
      match acc.1 with
      | none => (some (dist target v), v)
      | some bd => if dist target v < bd then (some (dist target v), v) else acc)
    ((none : Option Exq), (⟨0, 0⟩ : Pt))).2

/-- The target point `find` actually routes to: `to` itself if passable,
otherwise the closest passable vertex. -/
def snappedTarget (st : PathsSt) (dist : Pt → Pt → Exq) (toP : Pt) : Pt :=
  if polyContains st.passable toP then toP
  else closestVertex st.passable dist toP

/-- The mutable state of the A* loop: the queue, each waypoint's best known
path length (`none` = Infinity) and backtrack index (`-1` = the start), the
best finalized distance and node, and the sightline caches. -/
structure LoopSt where
  queue : List Node
  shortest : List (Option Exq)
  backtrack : List ℤ
  bestD : Option Exq
  best : Option ℕ
  caches : List (List Sightline)

/-- `x >= o` where `o` is a possibly-infinite best-known value (`none` =
Infinity, so nothing is ever `≥` it). -/
def infLe (o : Option Exq) (x : Exq) : Prop :=
  match o with
  | none => False
  | some s => s ≤ x

instance (o : Option Exq) (x : Exq) : Decidable (infLe o x) :=
  match o with
  | none => isFalse fun h => h
  | some s => inferInstanceAs (Decidable (s ≤ x))

/-- Relax one expanded node's sightlines in order. -/
def relaxAll (selfIdx : ℕ) (len0 : Exq) (tD : List Exq) :
    List Sightline → List Node → List (Option Exq) → List ℤ →
    List Node × List (Option Exq) × List ℤ
  | [], q, sh, bt => (q, sh, bt)
  | line :: rest, q, sh, bt =>
    let len := len0 + line.distance
    if infLe (sh.getD line.link none) len then relaxAll selfIdx len0 tD rest q sh bt
    else relaxAll selfIdx len0 tD rest
      (heapInsert q ⟨len + tD.getD line.link 0, line.link⟩)
      (setAt sh line.link (some len)) (setAt bt line.link (selfIdx : ℤ))

/-- The A* main loop of `Paths.find`.  One fuel unit per iteration; the source
loops until the queue drains, so the fuel is carried as an explicit parameter
and every theorem below holds for every fuel value. -/
def astarLoop (passable : List Ring) (points : List Pt) (dist : Pt → Pt → Exq)
    (tD : List Exq) (vis : List Bool) : ℕ → LoopSt → LoopSt
  | 0, ls => ls
  | fuel + 1, ls =>
    match heapPop ls.queue with
    | (none, _) => ls
    | (some node, q2) =>
      if infLe ls.bestD node.length then
        { ls with queue := q2 }
      else if vis.getD node.index false then
        astarLoop passable points dist tD vis fuel
          { ls with queue := q2, bestD := some node.length, best := some node.index }
      else
        let len0 := node.length - tD.getD node.index 0
        let cache := ls.caches.getD node.index []
        let sl := if cache.isEmpty then findSightlines passable points dist node.index
          else cache
        let caches2 := if cache.isEmpty then
          setAt ls.caches node.index sl else ls.caches
        match relaxAll node.index len0 tD sl q2 ls.shortest ls.backtrack with
        | (q3, sh2, bt2) =>
          astarLoop passable points dist tD vis fuel
            ⟨q3, sh2, bt2, ls.bestD, ls.best, caches2⟩

/-- Seed the open set with every waypoint directly visible from the start. -/
def seedAll (passable : List Ring) (dist : Pt → Pt → Exq) (fromP : Pt)
    (tD : List Exq) :
    List (ℕ × Pt) → List Node → List (Option Exq) → List ℤ →
    List Node × List (Option Exq) × List ℤ
  | [], q, sh, bt => (q, sh, bt)
  | iw :: rest, q, sh, bt =>
    if polyIntersects passable fromP iw.2 then seedAll passable dist fromP tD rest q sh bt
    else
      let len := dist fromP iw.2
      seedAll passable dist fromP tD rest
        (heapInsert q ⟨len + tD.getD iw.1 0, iw.1⟩)
        (setAt sh iw.1 (some len)) (setAt bt iw.1 (-1))

/-- Follow backtrack indices from the finalized waypoint back to the seed. -/
def backtrackPath (points : List Pt) (bt : List ℤ) : ℕ → ℤ → List Pt
  | 0, _ => []
  | fuel + 1, i =>
    if 0 ≤ i then
      getPt points i.toNat :: backtrackPath points bt fuel (bt.getD i.toNat (-1))
    else []

/-- The A* portion of `find`: distances and visibility to the target, seeding,
and the main loop. -/
def findLoopOut (st : PathsSt) (dist : Pt → Pt → Exq) (fuel : ℕ)
    (fromP to2 : Pt) : LoopSt :=
  let tD := st.points.map fun p => dist to2 p
  let vis := st.points.map fun p => !(polyIntersects st.passable to2 p)
  let n := st.points.length
  match seedAll st.passable dist fromP tD st.points.enum []
    (List.replicate n none) (List.replicate n (-1)) with
  | (q0, sh0, bt0) =>
    astarLoop st.passable st.points dist tD vis fuel ⟨q0, sh0, bt0, none, none, st.caches⟩

/-- `Paths.find` from `paths.js`.  Returns the path (in stack order: target
first, first waypoint last) together with the updated state (only the
sightline caches can change). -/
def findP (st : PathsSt) (dist : Pt → Pt → Exq) (fuel : ℕ)
    (fromP toP : Pt) : List Pt × PathsSt :=
  if st.passable.isEmpty then ([], st)
  else
    let to2 := snappedTarget st dist toP
    if polyIntersects st.passable fromP to2 = false then ([to2], st)
    else
      let ls := findLoopOut st dist fuel fromP to2
      match ls.best with
      | none => ([], { st with caches := ls.caches })
      | some bi =>
        (to2 :: backtrackPath st.points ls.backtrack (st.points.length + 1) (bi : ℤ),
          { st with caches := ls.caches })

/-! ## Claim C8: the direct-path shortcut and `Find(p, p)` -/

/-- A degenerate query segment (both endpoints equal) triggers no edge of the
`intersects` scan: its cross products are all zero-valued. -/
theorem step_self_false (s e v : Pt) (pc cross : Exq) (sg : Seg)
    (hn : cross.n = 0) :
    intersectsSegStep s e v pc cross sg = false := by
  have hlt : ¬(cross < (0 : Exq)) := by
    rw [Exq.lt_def]
    show ¬(cross.n * (1 : ℤ) < 0 * cross.d)
    omega
  have hgt : ¬((0 : Exq) < cross) := by
    rw [Exq.lt_def]
    show ¬((0 : ℤ) * cross.d < cross.n * 1)
    omega
  have hq : cross.qeq 0 = true := by
    unfold Exq.qeq
    rw [decide_eq_true_eq]
    show cross.n * (1 : ℤ) = 0 * cross.d
    omega
  unfold intersectsSegStep
  by_cases h1 : (s.x.qeq sg.x = true ∧ s.y.qeq sg.y = true)
  · rw [if_pos h1]
    exact decide_eq_false fun h => hlt h.2
  · rw [if_neg h1]
    by_cases h2 : (e.x.qeq sg.x = true ∧ e.y.qeq sg.y = true)
    · rw [if_pos h2]
      exact decide_eq_false fun h => hgt h.2
    · rw [if_neg h2, if_pos hq]

theorem intersectsRingGo_self (p : Pt) :
    ∀ (l : List Seg) (prev : Exq),
      intersectsRingGo p p ⟨p.x - p.x, p.y - p.y⟩ prev l = false := by
  intro l
  induction l with
  | nil => intro prev; rfl
  | cons sg rest ih =>
    intro prev
    unfold intersectsRingGo
    dsimp only
    rw [if_neg, ih]
    intro hstep
    have hn : (sg.dx * ((⟨p.x - p.x, p.y - p.y⟩ : Pt).y)
        - sg.dy * ((⟨p.x - p.x, p.y - p.y⟩ : Pt).x)).n = 0 := by
      show (sg.dx * (p.y - p.y) - sg.dy * (p.x - p.x)).n = 0
      simp only [Exq.sub_n, Exq.mul_n, Exq.mul_d, Exq.sub_d]
      ring
    rw [step_self_false p p _ prev _ sg hn] at hstep
    cases hstep

/-- A zero-length segment never intersects any polygon. -/
theorem polyIntersects_self (rings : List Ring) (p : Pt) :
    polyIntersects rings p p = false := by
  unfold polyIntersects
  rw [List.any_eq_false]
  intro r _
  rw [Bool.not_eq_true]
  cases r with
  | nil => rfl
  | cons s0 rest =>
    unfold intersectsRing
    exact intersectsRingGo_self p (s0 :: rest) _

/-- A concrete distance function for witnesses: squared Euclidean distance. -/
def distSq (a b : Pt) : Exq :=
  (a.x - b.x) * (a.x - b.x) + (a.y - b.y) * (a.y - b.y)

/-- C8, counterexample.  With an initialized state whose passable region is
empty, the straight segment from start to target crosses no boundary (there is
none), yet `find` returns the empty list, not the one-element path; the
`Find(p, p) = [p]` instance fails for the same state. -/
theorem c8_direct_counterexample :
    polyIntersects (pathsInit [] (iPt 0 0)).passable (iPt 1 1)
      (snappedTarget (pathsInit [] (iPt 0 0)) distSq (iPt 2 2)) = false ∧
    (findP (pathsInit [] (iPt 0 0)) distSq 10 (iPt 1 1) (iPt 2 2)).1 = [] ∧
    (findP (pathsInit [] (iPt 0 0)) distSq 10 (iPt 1 1) (iPt 1 1)).1 = [] := by
  decide

/-- C8, amended.  If the passable region is nonempty and the straight segment
from the start to the (possibly snapped) target does not cross its boundary,
`find` returns exactly the one-element path holding the snapped target; in
particular `Find(p, p) = [p]` whenever the region is nonempty and contains
`p`. -/
theorem c8_direct_amended :
    (∀ (st : PathsSt) (dist : Pt → Pt → Exq) (fuel : ℕ) (fromP toP : Pt),
      st.passable.isEmpty = false →
      polyIntersects st.passable fromP (snappedTarget st dist toP) = false →
      (findP st dist fuel fromP toP).1 = [snappedTarget st dist toP]) ∧
    (∀ (st : PathsSt) (dist : Pt → Pt → Exq) (fuel : ℕ) (p : Pt),
      st.passable.isEmpty = false →
      polyContains st.passable p = true →
      (findP st dist fuel p p).1 = [p]) := by
  have main : ∀ (st : PathsSt) (dist : Pt → Pt → Exq) (fuel : ℕ) (fromP toP : Pt),
      st.passable.isEmpty = false →
      polyIntersects st.passable fromP (snappedTarget st dist toP) = false →
      (findP st dist fuel fromP toP).1 = [snappedTarget st dist toP] := by
    intro st dist fuel fromP toP hne hdir
    unfold findP
    rw [if_neg (by rw [hne]; exact Bool.false_ne_true)]
    dsimp only
    rw [if_pos hdir]
  refine ⟨main, fun st dist fuel p hne hcont => ?_⟩
  have hsnap : snappedTarget st dist p = p := by
    unfold snappedTarget
    rw [if_pos hcont]
  have := main st dist fuel p p hne (by rw [hsnap]; exact polyIntersects_self _ p)
  rwa [hsnap] at this

/-- Witness for C8's amended theorem: a square room, a contained point. -/
theorem c8_direct_amended_witness :
    (findP (pathsInit [[iPt 0 0, iPt 40 0, iPt 40 40, iPt 0 40]] (iPt 5 5))
      distSq 10 (iPt 2 2) (iPt 2 2)).1 = [iPt 2 2] :=
  c8_direct_amended.2 (pathsInit [[iPt 0 0, iPt 40 0, iPt 40 40, iPt 0 40]] (iPt 5 5))
    distSq 10 (iPt 2 2) (by decide) (by decide)

/-! ## Claim C9: empty-list signaling -/

/-- Masks for a concrete no-path scene: a square room with a square hole. -/
def c9Masks : List (List Pt) :=
  [[iPt 0 0, iPt 40 0, iPt 40 40, iPt 0 40],
   [iPt 10 10, iPt 10 30, iPt 30 30, iPt 30 10]]

/-- C9.  `find` signals failure only through its value: when `init` produced an
empty passable region the returned path is the empty list (for every query
pair), and when the A* loop finishes without finalizing any waypoint (the
no-path condition, `best` still `none`) the returned path is again the empty
list.  The embedding of `find` is a total function into `List Pt × PathsSt`,
so no error is ever raised. -/
theorem c9_find_empty_signal :
    (∀ (st : PathsSt) (dist : Pt → Pt → Exq) (fuel : ℕ) (fromP toP : Pt),
      st.passable = [] →
      (findP st dist fuel fromP toP).1 = []) ∧
    (∀ (st : PathsSt) (dist : Pt → Pt → Exq) (fuel : ℕ) (fromP toP : Pt),
      polyIntersects st.passable fromP (snappedTarget st dist toP) = true →
      (findLoopOut st dist fuel fromP (snappedTarget st dist toP)).best = none →
      (findP st dist fuel fromP toP).1 = []) := by
  constructor
  · intro st dist fuel fromP toP hp
    unfold findP
    rw [hp]
    rfl
  · intro st dist fuel fromP toP hinter hbest
    have hne : st.passable.isEmpty = false := by
      cases hp : st.passable with
      | nil =>
        rw [hp] at hinter
        simp [polyIntersects] at hinter
      | cons a l => rfl
    unfold findP
    rw [if_neg (by rw [hne]; exact Bool.false_ne_true)]
    dsimp only
    rw [if_neg (by rw [hinter]; exact fun h => Bool.false_ne_true h.symm), hbest]

/-- Witness for C9: an empty scene, and the room-with-hole scene queried with
zero loop fuel (so nothing is ever finalized). -/
theorem c9_find_empty_signal_witness :
    (findP (pathsInit [] (iPt 0 0)) distSq 5 (iPt 1 2) (iPt 3 4)).1 = [] ∧
    (findP (pathsInit c9Masks (iPt 5 20)) distSq 0 (iPt 5 20) (iPt 35 20)).1 = [] :=
  ⟨c9_find_empty_signal.1 (pathsInit [] (iPt 0 0)) distSq 5 (iPt 1 2) (iPt 3 4) rfl,
   c9_find_empty_signal.2 (pathsInit c9Masks (iPt 5 20)) distSq 0 (iPt 5 20) (iPt 35 20)
     (by decide) (by decide)⟩

/-! ## Claim C10: consecutive `find` calls and the sightline caches -/

/-- `getD` on a list of empty caches (the state `init` produces). -/
theorem getD_const_nil {β : Type} :
    ∀ (l : List β) (i : ℕ), (l.map fun _ => ([] : List Sightline)).getD i [] = []
  | [], _ => rfl
  | _ :: _, 0 => rfl
  | _ :: rest, i + 1 => getD_const_nil rest i

/-- Reading back through an in-range update. -/
theorem setAt_getD {α : Type} (v d : α) :
    ∀ (l : List α) (i j : ℕ),
      (setAt l i v).getD j d = if i = j ∧ j < l.length then v else l.getD j d
  | [], i, j => by simp [setAt]
  | x :: rest, 0, 0 => by simp [setAt]
  | x :: rest, 0, j + 1 => by
    simp only [setAt, List.getD_cons_succ, List.length_cons]
    rw [if_neg (by omega)]
  | x :: rest, i + 1, 0 => by
    simp only [setAt, List.getD_cons_zero]
    rw [if_neg (by omega)]
  | x :: rest, i + 1, j + 1 => by
    simp only [setAt, List.getD_cons_succ, List.length_cons]
    rw [setAt_getD v d rest i j]
    by_cases h : i = j ∧ j < rest.length
    · rw [if_pos h, if_pos (by omega)]
    · rw [if_neg h, if_neg (by omega)]

/-- A cache list is valid when every slot is either still unfilled or holds
exactly the sightline list `_findSightlines` would compute for that waypoint. -/
def CacheValid (P : List Ring) (pts : List Pt) (dist : Pt → Pt → Exq)
    (caches : List (List Sightline)) : Prop :=
  ∀ i : ℕ, caches.getD i [] = [] ∨
    caches.getD i [] = findSightlines P pts dist i

theorem cacheValid_setAt {P : List Ring} {pts : List Pt} {dist : Pt → Pt → Exq}
    {caches : List (List Sightline)} (hv : CacheValid P pts dist caches) (i : ℕ) :
    CacheValid P pts dist (setAt caches i (findSightlines P pts dist i)) := by
  intro j
  rw [setAt_getD]
  by_cases h : i = j ∧ j < caches.length
  · rw [if_pos h]
    exact Or.inr (by rw [h.1])
  · rw [if_neg h]
    exact hv j

/-- Under validity, consulting the cache (recomputing on a miss) always yields
the `_findSightlines` value. -/
theorem cache_sl_eq {P : List Ring} {pts : List Pt} {dist : Pt → Pt → Exq}
    {caches : List (List Sightline)} (hv : CacheValid P pts dist caches) (i : ℕ) :
    (if (caches.getD i []).isEmpty then findSightlines P pts dist i
      else caches.getD i []) = findSightlines P pts dist i := by
  rcases hv i with hc | hc
  · rw [hc]
    rfl
  · rw [hc]
    exact ite_self _

/-- The A* loop preserves cache validity. -/
theorem astarLoop_valid (P : List Ring) (pts : List Pt) (dist : Pt → Pt → Exq)
    (tD : List Exq) (vis : List Bool) :
    ∀ (fuel : ℕ) (ls : LoopSt), CacheValid P pts dist ls.caches →
      CacheValid P pts dist (astarLoop P pts dist tD vis fuel ls).caches := by
  intro fuel
  induction fuel with
  | zero => intro ls hv; exact hv
  | succ fuel ih =>
    intro ls hv
    unfold astarLoop
    split
    · exact hv
    · split
      · exact hv
      · split
        · exact ih _ hv
        · dsimp only
          split
          · apply ih
            exact cacheValid_setAt hv _
          · apply ih
            exact hv

/-- The observable part of the loop state: everything except the caches. -/
def loopObs (ls : LoopSt) :
    List Node × List (Option Exq) × List ℤ × Option Exq × Option ℕ :=
  (ls.queue, ls.shortest, ls.backtrack, ls.bestD, ls.best)

/-- Two loop states that agree except for their (both valid) caches stay
observably equal through the whole A* loop. -/
theorem astarLoop_obs (P : List Ring) (pts : List Pt) (dist : Pt → Pt → Exq)
    (tD : List Exq) (vis : List Bool) :
    ∀ (fuel : ℕ) (q : List Node) (sh : List (Option Exq)) (bt : List ℤ)
      (bd : Option Exq) (b : Option ℕ) (c1 c2 : List (List Sightline)),
      CacheValid P pts dist c1 → CacheValid P pts dist c2 →
      loopObs (astarLoop P pts dist tD vis fuel ⟨q, sh, bt, bd, b, c1⟩) =
        loopObs (astarLoop P pts dist tD vis fuel ⟨q, sh, bt, bd, b, c2⟩) := by
  intro fuel
  induction fuel with
  | zero => intros; rfl
  | succ fuel ih =>
    intro q sh bt bd b c1 c2 h1 h2
    unfold astarLoop
    dsimp only
    rcases hpop : heapPop q with ⟨o, q2⟩
    cases o with
    | none => rfl
    | some node =>
      dsimp only
      by_cases hinf : infLe bd node.length
      · rw [if_pos hinf, if_pos hinf]
        rfl
      · rw [if_neg hinf, if_neg hinf]
        by_cases hvis : vis.getD node.index false = true
        · rw [if_pos hvis, if_pos hvis]
          exact ih q2 sh bt (some node.length) (some node.index) c1 c2 h1 h2
        · rw [if_neg hvis, if_neg hvis]
          rw [cache_sl_eq h1 node.index, cache_sl_eq h2 node.index]
          rcases hrel : relaxAll node.index (node.length - tD.getD node.index 0) tD
              (findSightlines P pts dist node.index) q2 sh bt with ⟨q3, sh2, bt2⟩
          dsimp only
          apply ih
          · split
            · exact cacheValid_setAt h1 node.index
            · exact h1
          · split
            · exact cacheValid_setAt h2 node.index
            · exact h2

/-- The A* front end of `find` preserves cache validity. -/
theorem findLoopOut_valid (st : PathsSt) (dist : Pt → Pt → Exq) (fuel : ℕ)
    (fromP to2 : Pt)
    (hv : CacheValid st.passable st.points dist st.caches) :
    CacheValid st.passable st.points dist
      (findLoopOut st dist fuel fromP to2).caches := by
  unfold findLoopOut
  dsimp only
  exact astarLoop_valid _ _ _ _ _ fuel _ hv

/-- The A* front end of `find` is observably cache-independent. -/
theorem findLoopOut_obs (P : List Ring) (pts : List Pt)
    (c1 c2 : List (List Sightline)) (dist : Pt → Pt → Exq) (fuel : ℕ)
    (fromP to2 : Pt)
    (h1 : CacheValid P pts dist c1) (h2 : CacheValid P pts dist c2) :
    loopObs (findLoopOut ⟨P, pts, c1⟩ dist fuel fromP to2) =
      loopObs (findLoopOut ⟨P, pts, c2⟩ dist fuel fromP to2) := by
  unfold findLoopOut
  dsimp only
  rcases hseed : seedAll P dist fromP (pts.map fun p => dist to2 p) pts.enum []
      (List.replicate pts.length none) (List.replicate pts.length (-1))
    with ⟨q0, sh0, bt0⟩
  exact astarLoop_obs P pts dist _ _ fuel q0 sh0 bt0 none none c1 c2 h1 h2

/-- The returned path of `find` does not depend on which (valid) caches the
state carries. -/
theorem findP_fst_eq (st1 st2 : PathsSt) (dist : Pt → Pt → Exq) (fuel : ℕ)
    (fromP toP : Pt)
    (hP : st1.passable = st2.passable) (hpts : st1.points = st2.points)
    (h1 : CacheValid st1.passable st1.points dist st1.caches)
    (h2 : CacheValid st2.passable st2.points dist st2.caches) :
    (findP st1 dist fuel fromP toP).1 = (findP st2 dist fuel fromP toP).1 := by
  rcases st1 with ⟨P1, pts1, c1⟩
  rcases st2 with ⟨P2, pts2, c2⟩
  dsimp only at hP hpts h1 h2
  subst hP
  subst hpts
  have hsnap : snappedTarget ⟨P1, pts1, c1⟩ dist toP
      = snappedTarget ⟨P1, pts1, c2⟩ dist toP := rfl
  unfold findP
  dsimp only
  by_cases hE : P1.isEmpty = true
  · rw [if_pos hE, if_pos hE]
  · rw [if_neg hE, if_neg hE]
    rw [hsnap]
    by_cases hI : polyIntersects P1 fromP (snappedTarget ⟨P1, pts1, c2⟩ dist toP) = false
    · rw [if_pos hI, if_pos hI]
    · rw [if_neg hI, if_neg hI]
      have hobs := findLoopOut_obs P1 pts1 c1 c2 dist fuel fromP
        (snappedTarget ⟨P1, pts1, c2⟩ dist toP) h1 h2
      have hbest := congrArg (fun t => t.2.2.2.2) hobs
      have hbt := congrArg (fun t => t.2.2.1) hobs
      dsimp only [loopObs] at hbest hbt
      rcases hb : (findLoopOut ⟨P1, pts1, c2⟩ dist fuel fromP
          (snappedTarget ⟨P1, pts1, c2⟩ dist toP)).best with _ | bi
      · rw [hbest, hb]
      · rw [hbest, hb]
        dsimp only
        rw [hbt]

/-- `find` never changes the passable region or the waypoint list, and keeps
the caches valid. -/
theorem findP_preserve (st : PathsSt) (dist : Pt → Pt → Exq) (fuel : ℕ)
    (fromP toP : Pt)
    (hv : CacheValid st.passable st.points dist st.caches) :
    (findP st dist fuel fromP toP).2.passable = st.passable ∧
    (findP st dist fuel fromP toP).2.points = st.points ∧
    CacheValid st.passable st.points dist
      (findP st dist fuel fromP toP).2.caches := by
  unfold findP
  split
  · exact ⟨rfl, rfl, hv⟩
  · dsimp only
    split
    · exact ⟨rfl, rfl, hv⟩
    · split
      · exact ⟨rfl, rfl, findLoopOut_valid st dist fuel fromP _ hv⟩
      · exact ⟨rfl, rfl, findLoopOut_valid st dist fuel fromP _ hv⟩

/-- C10.  For any state produced by `init` and any query, calling `find` twice
in a row (threading the state, with no intervening `init`) returns the same
waypoint list both times: the lazy filling of the sightline caches during the
first call does not change what the second call computes. -/
theorem c10_consecutive_find_identical (masks : List (List Pt)) (start : Pt)
    (dist : Pt → Pt → Exq) (fuel : ℕ) (fromP toP : Pt) :
    (findP (findP (pathsInit masks start) dist fuel fromP toP).2
        dist fuel fromP toP).1 =
      (findP (pathsInit masks start) dist fuel fromP toP).1 := by
  have hv0 : CacheValid (pathsInit masks start).passable
      (pathsInit masks start).points dist (pathsInit masks start).caches := by
    intro i
    exact Or.inl (getD_const_nil _ i)
  have hpres := findP_preserve (pathsInit masks start) dist fuel fromP toP hv0
  apply findP_fst_eq _ _ dist fuel fromP toP hpres.1 hpres.2.1
  · rw [hpres.1, hpres.2.1]
    exact hpres.2.2
  · exact hv0

end Whimsy
